import Mathlib

/-!
# Verification of `set-version.py`

Shallow embedding of the version-propagation script `set-version.py` and
proofs about its behavior.  The script reads `variables.toml`, extracts
`version.version`, `openapi.oapigen-version` and `openapi.oapi-spec`, and
performs seven `re.sub`-based find-and-replace operations over five target
files.

Strings are modelled as `List Char`.  The regular expressions used by the
script fall into a small fragment (character literals, `\d+`, `\s*`, and the
`$` end-of-line anchor); we embed that fragment with a greedy backtracking
matcher mirroring Python `re` semantics, and `re.sub` as a single
left-to-right pass replacing every non-overlapping match.  Replacement
templates are processed for backslash escapes as Python does.  The file
system is an association list from paths to contents, and every `print` or
file write is recorded as an event so that observable behavior can be
stated precisely.
-/

namespace SetVersion

/-- Python `\d` restricted to ASCII decimal digits (the only digits that occur
in the version strings this script manipulates). -/
def isPyDigit (c : Char) : Bool := c.isDigit

/-- The whitespace characters matched by Python `\s` on `str` patterns. -/
def isPySpace (c : Char) : Bool :=
  c ∈ [' ', '\t', '\n', '\r', '\x0b', '\x0c',
       '\x1c', '\x1d', '\x1e', '\x1f', '\u0085', '\u00A0', '\u1680',
       '\u2000', '\u2001', '\u2002', '\u2003', '\u2004', '\u2005',
       '\u2006', '\u2007', '\u2008', '\u2009', '\u200A', '\u2028',
       '\u2029', '\u202F', '\u205F', '\u3000']

/-- The regular-expression fragment used by the script: literal characters,
`\d+`, `\s*`, and the end-of-line anchor `$`. A pattern is a `List RE`. -/
inductive RE where
  | lit (c : Char)
  | digitPlus
  | wsStar
  | eol
deriving DecidableEq, Repr

/-- Number of leading characters of `s` satisfying `f`. -/
def countLeading (f : Char → Bool) : List Char → Nat
  | [] => 0
  | c :: cs => if f c then countLeading f cs + 1 else 0

/-- Greedy backtracking helper: try to consume exactly `k` characters of `s`,
then `k - 1`, ..., down to `lo`; continue with `cont` on the rest and return
the total consumed length of the first success. -/
def tryDesc (cont : List Char → Option Nat) (s : List Char) (lo : Nat) :
    Nat → Option Nat
  | 0 =>
    if lo = 0 then
      match cont s with
      | some m => some m
      | none => none
    else none
  | k + 1 =>
    if k + 1 < lo then none
    else
      match cont (List.drop (k + 1) s) with
      | some m => some (k + 1 + m)
      | none => tryDesc cont s lo k

/-- Match a pattern against a prefix of `s` with Python `re` semantics
(greedy quantifiers with backtracking; `$` matches at the end of the input
or just before a final newline).  Returns the number of characters consumed
by the leftmost-greedy match starting at position 0, or `none`. -/
def matchFrom : List RE → List Char → Option Nat
  | [], _ => some 0
  | .lit _ :: _, [] => none
  | .lit c :: ps, x :: xs =>
    if x = c then (matchFrom ps xs).map (· + 1) else none
  | .digitPlus :: ps, s =>
    let n := countLeading isPyDigit s
    if n = 0 then none else tryDesc (matchFrom ps) s 1 n
  | .wsStar :: ps, s => tryDesc (matchFrom ps) s 0 (countLeading isPySpace s)
  | .eol :: ps, s => if s = [] ∨ s = ['\n'] then matchFrom ps s else none

/-- Fuel-indexed scan for `re.sub`; the fuel always equals the length of the
remaining input, so the fuel-exhausted branch is unreachable. -/
def subAuxF (p : List RE) (r : List Char) : Nat → List Char → List Char
  | _, [] => if (matchFrom p []).isSome then r else []
  | 0, c :: cs => c :: cs
  | fuel + 1, c :: cs =>
    match matchFrom p (c :: cs) with
    | some (k + 1) => r ++ subAuxF p r fuel (List.drop k cs)
    | some 0 => r ++ c :: subAuxF p r fuel cs
    | none => c :: subAuxF p r fuel cs

/-- One pass of `re.sub` with an already-processed replacement string `r`:
scan left to right, replace every non-overlapping match of `p` by `r`.
(A zero-width match is replaced and the scan advances one character,
mirroring Python 3.7+; the script's patterns never match zero width.) -/
def subAux (p : List RE) (r : List Char) (s : List Char) : List Char :=
  subAuxF p r s.length s

/-- Octal digit test, for `\0`-style octal escapes in templates. -/
def isOctal (c : Char) : Bool := '0' ≤ c ∧ c ≤ '7'

/-- Value of an octal digit. -/
def octVal (c : Char) : Nat := c.toNat - '0'.toNat

/-- Process a Python `re.sub` replacement template for backslash escapes:
`\\` and the letter escapes are translated, `\0` (with up to two further
octal digits) is an octal character escape, `\` followed by another
non-alphanumeric character is kept as the two characters, and group
references (`\1`...) or unknown letter escapes are errors (`none`), as they
are in a substitution whose pattern has no capture groups.  (Whole-match
references `\g<0>` are not modelled; no value the script formats contains
them.) -/
def parseTemplate : List Char → Option (List Char)
  | [] => some []
  | ['\\'] => none
  | '\\' :: '0' :: [] => some ['\x00']
  | '\\' :: '0' :: [d1] =>
    if isOctal d1 then some [Char.ofNat (octVal d1)]
    else (parseTemplate [d1]).map ('\x00' :: ·)
  | '\\' :: '0' :: d1 :: d2 :: cs =>
    if isOctal d1 then
      if isOctal d2 then
        (parseTemplate cs).map (Char.ofNat (octVal d1 * 8 + octVal d2) :: ·)
      else (parseTemplate (d2 :: cs)).map (Char.ofNat (octVal d1) :: ·)
    else (parseTemplate (d1 :: d2 :: cs)).map ('\x00' :: ·)
  | '\\' :: c :: cs =>
    if c = '\\' then (parseTemplate cs).map ('\\' :: ·)
    else if c = 'a' then (parseTemplate cs).map ('\x07' :: ·)
    else if c = 'b' then (parseTemplate cs).map ('\x08' :: ·)
    else if c = 'f' then (parseTemplate cs).map ('\x0c' :: ·)
    else if c = 'n' then (parseTemplate cs).map ('\n' :: ·)
    else if c = 'r' then (parseTemplate cs).map ('\r' :: ·)
    else if c = 't' then (parseTemplate cs).map ('\t' :: ·)
    else if c = 'v' then (parseTemplate cs).map ('\x0b' :: ·)
    else if c.isAlpha ∨ c.isDigit ∨ c = 'g' then none
    else (parseTemplate cs).map (fun t => '\\' :: c :: t)
  | c :: cs => (parseTemplate cs).map (c :: ·)

/-- Observable events of a run: a file write (full overwrite) or a line
printed to standard output. -/
inductive Event where
  | write (path : String) (content : List Char)
  | print (line : String)
deriving DecidableEq, Repr

/-- The file system: an association list from paths to file contents. -/
abbrev FS := List (String × List Char)

/-- Read a file (`Path.read_text`): `none` when the file does not exist. -/
def fsRead (fs : FS) (path : String) : Option (List Char) :=
  match fs with
  | [] => none
  | (q, d) :: rest => if q = path then some d else fsRead rest path

/-- Write a file in place (`Path.write_text`), creating it if absent. -/
def fsWrite (fs : FS) (path : String) (content : List Char) : FS :=
  match fs with
  | [] => [(path, content)]
  | (q, d) :: rest =>
    if q = path then (path, content) :: rest
    else (q, d) :: fsWrite rest path content

/-- Errors that terminate the script (uncaught Python exceptions). -/
inductive PyErr where
  | fileNotFound (path : String)
  | tomlDecodeFail
  | keyMiss (key : String)
  | typeFail
  | badTemplate
deriving DecidableEq, Repr

deriving instance DecidableEq for Except

/-- The status line `Updated <path>`. -/
def updatedLine (path : String) : String := "Updated " ++ path

/-- The status line `No changes needed in <path>`. -/
def noChangesLine (path : String) : String := "No changes needed in " ++ path

/-- The function `replace(file, pattern, replacement)` of the script:
read the file, substitute, and either overwrite and print
`Updated <path>`, or leave it alone and print `No changes needed in <path>`.
Errors: missing file, or an invalid escape in the replacement template. -/
def replace (fs : FS) (path : String) (p : List RE) (tmpl : List Char) :
    Except PyErr (FS × List Event) :=
  match fsRead fs path with
  | none => .error (.fileNotFound path)
  | some text =>
    match parseTemplate tmpl with
    | none => .error .badTemplate
    | some r =>
      let newText := subAux p r text
      if text = newText then
        .ok (fs, [.print (noChangesLine path)])
      else
        .ok (fsWrite fs path newText,
             [.write path newText, .print (updatedLine path)])

/-- TOML values as far as the script observes them: strings, tables, and a
representative non-string scalar (integers).  `tomllib` produces Python
values; the script only ever indexes with string keys and formats values
into f-strings. -/
inductive TVal where
  | str (s : String)
  | int (n : Int)
  | table (kv : List (String × TVal))

/-- Python `value[key]` indexing: a `KeyError` on a missing table key, a
`TypeError` when indexing a non-table with a string key. -/
def tomlIndex : TVal → String → Except PyErr TVal
  | .table kv, key =>
    match kv.find? (fun e => e.1 = key) with
    | some e => .ok e.2
    | none => .error (.keyMiss key)
  | .str _, _ => .error .typeFail
  | .int _, _ => .error .typeFail

/-- Auxiliary rendering of table values for `pyFormat`; the script only ever
formats strings and scalars, so the exact shape chosen for tables is
irrelevant to every statement below. -/
def tableRender (_ : List (String × TVal)) : List Char :=
  ['<', 't', 'a', 'b', 'l', 'e', '>']

def pyFormatCore : TVal → List Char
  | .str s => s.data
  | .int n => (toString n).data
  | .table kv => tableRender kv

/-- Formatting a value into an f-string (`f"...{value}..."`). -/
def pyFormat (v : TVal) : List Char := pyFormatCore v

/-- A sequence of literal characters as pattern elements. -/
def lits (cs : List Char) : List RE := cs.map RE.lit

/-- The common tail `\d+\.\d+\.\d+\"` of every pattern in the script. -/
def verTail : List RE :=
  [.digitPlus, .lit '.', .digitPlus, .lit '.', .digitPlus, .lit '"']

/-- The fixed literal prefix `LABEL version="` of the Dockerfile pattern. -/
def labelPre : List Char := "LABEL version=\"".data

/-- The fixed literal prefix `version` of the Cargo.toml pattern. -/
def cargoPre : List Char := "version".data

/-- The fixed literal prefix of the generator-version patterns. -/
def oapiPre : List Char := "OPENAPI_GENERATOR_VERSION=\"".data

/-- The fixed literal prefix of the spec-path patterns. -/
def specPre : List Char := "SPEC_PATH=\"".data

/-- Pattern `LABEL version=\"\d+\.\d+\.\d+\"` (both Dockerfiles). -/
def labelPat : List RE := lits labelPre ++ verTail

/-- Pattern `version\s*=\s*\"\d+\.\d+\.\d+\"` (Cargo.toml). -/
def cargoPat : List RE :=
  lits cargoPre ++ [.wsStar, .lit '=', .wsStar, .lit '"'] ++ verTail

/-- Pattern `$OPENAPI_GENERATOR_VERSION=\"\d+\.\d+\.\d+\"` (oapigen.ps1):
the `$` is a regular-expression end-of-line anchor, not a literal. -/
def oapiPs1Pat : List RE := .eol :: lits oapiPre ++ verTail

/-- Pattern `$SPEC_PATH=\"\d+\.\d+\.\d+\"` (oapigen.ps1). -/
def specPs1Pat : List RE := .eol :: lits specPre ++ verTail

/-- Pattern `OPENAPI_GENERATOR_VERSION=\"\d+\.\d+\.\d+\"` (oapigen.sh). -/
def oapiShPat : List RE := lits oapiPre ++ verTail

/-- Pattern `SPEC_PATH=\"\d+\.\d+\.\d+\"` (oapigen.sh). -/
def specShPat : List RE := lits specPre ++ verTail

/-- Replacement f-string `LABEL version="{version}"`. -/
def labelTmpl (v : List Char) : List Char := labelPre ++ v ++ ['"']

/-- Replacement f-string `version = "{version}"`. -/
def cargoTmpl (v : List Char) : List Char :=
  "version = \"".data ++ v ++ ['"']

/-- Replacement f-string `$OPENAPI_GENERATOR_VERSION="{...}"` (literal `$`). -/
def oapiPs1Tmpl (v : List Char) : List Char :=
  '$' :: oapiPre ++ v ++ ['"']

/-- Replacement f-string `$SPEC_PATH="{...}"` (literal `$`). -/
def specPs1Tmpl (v : List Char) : List Char :=
  '$' :: specPre ++ v ++ ['"']

/-- Replacement f-string `OPENAPI_GENERATOR_VERSION="{...}"`. -/
def oapiShTmpl (v : List Char) : List Char := oapiPre ++ v ++ ['"']

/-- Replacement f-string `SPEC_PATH="{...}"`. -/
def specShTmpl (v : List Char) : List Char := specPre ++ v ++ ['"']

/-- The result of a whole run of the script: the final file system, the
trace of observable events in order, and the uncaught exception that
terminated the process, if any.  On an error the events already emitted and
the writes already performed remain (no rollback). -/
structure RunOut where
  fs : FS
  trace : List Event
  err : Option PyErr
deriving DecidableEq, Repr

/-- The whole script, top to bottom.  `parse` stands for `tomllib.load`
(an external library): it receives the bytes of `variables.toml` and
returns the parsed value, or `none` for a TOML decoding error.  Every step
mirrors one line of `set-version.py`, in source order; in particular
`file["openapi"]` is only evaluated after the first three `replace` calls,
and the `oapid[...]` lookups happen when the respective f-string argument
is built, right before the corresponding call. -/
def run (parse : List Char → Option TVal) (fs0 : FS) : RunOut :=
  match fsRead fs0 "variables.toml" with
  | none => ⟨fs0, [], some (.fileNotFound "variables.toml")⟩
  | some ctext =>
  match parse ctext with
  | none => ⟨fs0, [], some .tomlDecodeFail⟩
  | some cfg =>
  match tomlIndex cfg "version" with
  | .error e => ⟨fs0, [], some e⟩
  | .ok vtab =>
  match tomlIndex vtab "version" with
  | .error e => ⟨fs0, [], some e⟩
  | .ok vval =>
  let v := pyFormat vval
  match replace fs0 "Dockerfile.deploy" labelPat (labelTmpl v) with
  | .error e => ⟨fs0, [], some e⟩
  | .ok (fs1, t1) =>
  match replace fs1 "Dockerfile" labelPat (labelTmpl v) with
  | .error e => ⟨fs1, t1, some e⟩
  | .ok (fs2, t2) =>
  match replace fs2 "Cargo.toml" cargoPat (cargoTmpl v) with
  | .error e => ⟨fs2, t1 ++ t2, some e⟩
  | .ok (fs3, t3) =>
  match tomlIndex cfg "openapi" with
  | .error e => ⟨fs3, t1 ++ t2 ++ t3, some e⟩
  | .ok oapid =>
  match tomlIndex oapid "oapigen-version" with
  | .error e => ⟨fs3, t1 ++ t2 ++ t3, some e⟩
  | .ok gv4 =>
  match replace fs3 "oapigen.ps1" oapiPs1Pat (oapiPs1Tmpl (pyFormat gv4)) with
  | .error e => ⟨fs3, t1 ++ t2 ++ t3, some e⟩
  | .ok (fs4, t4) =>
  match tomlIndex oapid "oapi-spec" with
  | .error e => ⟨fs4, t1 ++ t2 ++ t3 ++ t4, some e⟩
  | .ok sv5 =>
  match replace fs4 "oapigen.ps1" specPs1Pat (specPs1Tmpl (pyFormat sv5)) with
  | .error e => ⟨fs4, t1 ++ t2 ++ t3 ++ t4, some e⟩
  | .ok (fs5, t5) =>
  match tomlIndex oapid "oapigen-version" with
  | .error e => ⟨fs5, t1 ++ t2 ++ t3 ++ t4 ++ t5, some e⟩
  | .ok gv6 =>
  match replace fs5 "oapigen.sh" oapiShPat (oapiShTmpl (pyFormat gv6)) with
  | .error e => ⟨fs5, t1 ++ t2 ++ t3 ++ t4 ++ t5, some e⟩
  | .ok (fs6, t6) =>
  match tomlIndex oapid "oapi-spec" with
  | .error e => ⟨fs6, t1 ++ t2 ++ t3 ++ t4 ++ t5 ++ t6, some e⟩
  | .ok sv7 =>
  match replace fs6 "oapigen.sh" specShPat (specShTmpl (pyFormat sv7)) with
  | .error e => ⟨fs6, t1 ++ t2 ++ t3 ++ t4 ++ t5 ++ t6, some e⟩
  | .ok (fs7, t7) =>
    ⟨fs7, t1 ++ t2 ++ t3 ++ t4 ++ t5 ++ t6 ++ t7, none⟩

/-- One substitution rule: a target path, a search pattern and a replacement
template. -/
structure Rule where
  path : String
  pat : List RE
  tmpl : List Char
deriving DecidableEq

/-- Apply a list of substitution rules in order, stopping at the first
error; used to state reordering properties of the seven calls. -/
def applyRules (fs : FS) : List Rule → FS × List Event × Option PyErr
  | [] => (fs, [], none)
  | rule :: rest =>
    match replace fs rule.path rule.pat rule.tmpl with
    | .error e => (fs, [], some e)
    | .ok (fs1, t) =>
      let out := applyRules fs1 rest
      (out.1, t ++ out.2.1, out.2.2)

/-- The seven substitution rules of the script, in source order, for
formatted configuration values `v` (`version.version`), `g`
(`openapi.oapigen-version`) and `s` (`openapi.oapi-spec`). -/
def rules7 (v g s : List Char) : List Rule :=
  [⟨"Dockerfile.deploy", labelPat, labelTmpl v⟩,
   ⟨"Dockerfile", labelPat, labelTmpl v⟩,
   ⟨"Cargo.toml", cargoPat, cargoTmpl v⟩,
   ⟨"oapigen.ps1", oapiPs1Pat, oapiPs1Tmpl g⟩,
   ⟨"oapigen.ps1", specPs1Pat, specPs1Tmpl s⟩,
   ⟨"oapigen.sh", oapiShPat, oapiShTmpl g⟩,
   ⟨"oapigen.sh", specShPat, specShTmpl s⟩]

/-- The strings generated by a pattern of the `$`-free fragment: the
language of the regular expression.  (`$` is context-dependent and
generates nothing here; the `$`-anchored patterns are handled separately.) -/
inductive Gen : List RE → List Char → Prop
  | nil : Gen [] []
  | lit {c : Char} {ps w} : Gen ps w → Gen (.lit c :: ps) (c :: w)
  | digitPlus {d : List Char} {ps w} : d ≠ [] → d.all isPyDigit = true →
      Gen ps w → Gen (.digitPlus :: ps) (d ++ w)
  | wsStar {d : List Char} {ps w} : d.all isPySpace = true →
      Gen ps w → Gen (.wsStar :: ps) (d ++ w)

/-- Strings left unchanged by `subAux p r`: an interleaving of characters at
which `p` fails to match with exact copies of the replacement `r`. -/
inductive Stable (p : List RE) (r : List Char) : List Char → Prop
  | nil : Stable p r []
  | cons {c u} : matchFrom p (c :: u) = none → Stable p r u →
      Stable p r (c :: u)
  | block {u} : Stable p r u → Stable p r (r ++ u)

/-- A conventional dotted-numeric version string:
`<digits>.<digits>.<digits>`. -/
def VersionShape (v : List Char) : Prop :=
  ∃ d1 d2 d3 : List Char, d1 ≠ [] ∧ d2 ≠ [] ∧ d3 ≠ [] ∧
    d1.all isPyDigit = true ∧ d2.all isPyDigit = true ∧
    d3.all isPyDigit = true ∧ v = d1 ++ '.' :: d2 ++ '.' :: d3

/-- Characters that can follow the literal prefix in a match of the
Dockerfile and generator-script patterns. -/
def verChar (c : Char) : Bool := isPyDigit c || c = '.' || c = '"'

/-- Characters that can follow the literal prefix `version` in a match of
the Cargo.toml pattern. -/
def cargoTailChar (c : Char) : Bool :=
  isPySpace c || c = '=' || c = '"' || isPyDigit c || c = '.'

/-- The characters a single pattern element can consume. -/
def reCharsOK (C : Char → Bool) : RE → Prop
  | .lit c => C c = true
  | .digitPlus => ∀ c, isPyDigit c = true → C c = true
  | .wsStar => ∀ c, isPySpace c = true → C c = true
  | .eol => True

/-- Decidable overlap condition: a copy of `Q` cannot start at any positive
offset inside a string of the form `P ++ v` with `v.all C`.  Checked by
exhibiting, for every shift `s`, a position of `Q` that clashes. -/
def crossOKb (P : List Char) (C : Char → Bool) (Q : List Char) : Bool :=
  decide (P ≠ []) && decide (Q ≠ []) && !(C (Q.headD ' ')) &&
  ((List.range P.length).all fun s =>
    decide (s = 0) ||
    ((List.range Q.length).any fun i =>
      (decide (s + i < P.length) && decide (P.getD (s + i) ' ' ≠ Q.getD i ' ')) ||
      (decide (P.length ≤ s + i) && !(C (Q.getD i ' ')))))

/-- The two possible event groups of one successful `replace` call: a write
followed by `Updated <path>`, or just `No changes needed in <path>`. -/
def replaceEvents (path : String) (tr : List Event) : Prop :=
  (∃ c, tr = [.write path c, .print (updatedLine path)]) ∨
  tr = [.print (noChangesLine path)]

/-- The lines printed in a trace, in order. -/
def printsOf (tr : List Event) : List String :=
  tr.filterMap fun e =>
    match e with
    | .print l => some l
    | .write _ _ => none

/-- Whether an event is a file write. -/
def isWriteEvent : Event → Bool
  | .write _ _ => true
  | .print _ => false

/-- A file system holding `variables.toml` plus the five target files with
the given contents. -/
def mkFS (ct c1 c2 c3 c4 c5 : List Char) : FS :=
  [("variables.toml", ct),
   ("Dockerfile.deploy", c1),
   ("Dockerfile", c2),
   ("Cargo.toml", c3),
   ("oapigen.ps1", c4),
   ("oapigen.sh", c5)]

/-- A well-formed configuration value with the three documented fields. -/
def mkCfg (v g s : TVal) : TVal :=
  .table [("version", .table [("version", v)]),
          ("openapi", .table [("oapigen-version", g), ("oapi-spec", s)])]

/-- A parser producing the end-to-end scenario configuration of the
specification: `2.0.1` / `5.4.0` / `3.1.0`. -/
def goodParse : List Char → Option TVal :=
  fun _ => some (mkCfg (.str "2.0.1") (.str "5.4.0") (.str "3.1.0"))

/-- An ordinary initial file system: each target holds its pattern once. -/
def fsA : FS :=
  mkFS []
    "LABEL version=\"1.0.0\"".data
    "LABEL version=\"1.0.0\"".data
    "version = \"0.1.0\"".data
    "$OPENAPI_GENERATOR_VERSION=\"1.0.0\"".data
    "OPENAPI_GENERATOR_VERSION=\"1.0.0\"\nSPEC_PATH=\"0.0.1\"".data

/-- A configuration with `version.version` present but no `openapi` table. -/
def cfgNoOpenapi : TVal :=
  .table [("version", .table [("version", .str "9.9.9")])]

/-- A configuration whose `version.version` holds an integer, not a
string. -/
def cfgIntVer : TVal := mkCfg (.int 3) (.str "5.4.0") (.str "3.1.0")

/-- A configuration whose `openapi` table lacks the `oapi-spec` key. -/
def cfgNoSpec : TVal :=
  .table [("version", .table [("version", .str "9.9.9")]),
          ("openapi", .table [("oapigen-version", .str "5.4.0")])]

/-- A parser producing a version value that escapes its quoted context in
the rewritten files. -/
def advParse : List Char → Option TVal :=
  fun _ => some (mkCfg (.str "1.2.3\" LABEL version=\"7.7.7")
    (.str "5.4.0") (.str "3.1.0"))

/-- Initial files for the adversarial idempotence scenario. -/
def advFS : FS := mkFS [] "LABEL version=\"0.0.0\"".data [] [] [] []

/-- The seven substitution rules with the two `oapigen.sh` rules
exchanged: a reordering of `rules7`. -/
def rules7swap (v g s : List Char) : List Rule :=
  [⟨"Dockerfile.deploy", labelPat, labelTmpl v⟩,
   ⟨"Dockerfile", labelPat, labelTmpl v⟩,
   ⟨"Cargo.toml", cargoPat, cargoTmpl v⟩,
   ⟨"oapigen.ps1", oapiPs1Pat, oapiPs1Tmpl g⟩,
   ⟨"oapigen.ps1", specPs1Pat, specPs1Tmpl s⟩,
   ⟨"oapigen.sh", specShPat, specShTmpl s⟩,
   ⟨"oapigen.sh", oapiShPat, oapiShTmpl g⟩]

/-- An `oapigen-version` value that smuggles a `SPEC_PATH` assignment into
`oapigen.sh`, making the two same-file rules order-sensitive. -/
def gAdv : List Char := "7.7.7\" SPEC_PATH=\"1.1.1".data

/-- Initial files for the reordering scenario: `oapigen.sh` holds only a
generator-version assignment. -/
def fsC7 : FS := mkFS [] [] [] [] [] "OPENAPI_GENERATOR_VERSION=\"0.0.0\"".data

/-! ## Basic properties of the matcher and the substitution scan -/

theorem countLeading_le_length (f : Char → Bool) :
    ∀ s : List Char, countLeading f s ≤ s.length := by
  intro s
  induction s with
  | nil => simp [countLeading]
  | cons c cs ih =>
    simp only [countLeading, List.length_cons]
    split <;> omega

theorem tryDesc_inv {cont : List Char → Option Nat} {s : List Char}
    {lo n k : Nat} (h : tryDesc cont s lo n = some k) :
    ∃ j m, lo ≤ j ∧ j ≤ n ∧ cont (List.drop j s) = some m ∧ k = j + m := by
  induction n with
  | zero =>
    by_cases hlo : lo = 0
    · subst hlo
      simp only [tryDesc, if_pos rfl] at h
      rcases hc : cont s with _ | m
      · rw [hc] at h; exact absurd h (by simp)
      · rw [hc] at h
        refine ⟨0, m, le_refl 0, le_refl 0, by simpa using hc, ?_⟩
        simpa using h.symm
    · rw [tryDesc, if_neg hlo] at h
      exact absurd h (by simp)
  | succ n ih =>
    rw [tryDesc] at h
    by_cases hlo : n + 1 < lo
    · rw [if_pos hlo] at h; exact absurd h (by simp)
    · rw [if_neg hlo] at h
      rcases hc : cont (List.drop (n + 1) s) with _ | m
      · rw [hc] at h
        obtain ⟨j, m, h1, h2, h3, h4⟩ := ih h
        exact ⟨j, m, h1, Nat.le_succ_of_le h2, h3, h4⟩
      · rw [hc] at h
        refine ⟨n + 1, m, by omega, le_refl _, hc, ?_⟩
        simpa using h.symm

theorem tryDesc_isSome {cont : List Char → Option Nat} {s : List Char}
    {lo n j m : Nat} (h1 : lo ≤ j) (h2 : j ≤ n)
    (h3 : cont (List.drop j s) = some m) :
    (tryDesc cont s lo n).isSome = true := by
  induction n with
  | zero =>
    have hj : j = 0 := Nat.le_zero.mp h2
    subst hj
    rw [tryDesc, if_pos (Nat.le_zero.mp h1)]
    rw [List.drop_zero] at h3
    rw [h3]
    rfl
  | succ n ih =>
    rw [tryDesc, if_neg (by omega)]
    rcases hc : cont (List.drop (n + 1) s) with _ | m2
    · rcases Nat.lt_or_ge j (n + 1) with hj | hj
      · exact ih (by omega)
      · have hj2 : j = n + 1 := by omega
        subst hj2
        rw [hc] at h3
        exact absurd h3 (by simp)
    · simp

theorem tryDesc_greedy {cont : List Char → Option Nat} {s : List Char}
    {lo n m : Nat} (h1 : ¬ n < lo) (h2 : cont (List.drop n s) = some m) :
    tryDesc cont s lo n = some (n + m) := by
  cases n with
  | zero =>
    rw [tryDesc, if_pos (by omega)]
    rw [List.drop_zero] at h2
    rw [h2]
    simp
  | succ n =>
    rw [tryDesc, if_neg h1, h2]

theorem matchFrom_le_length :
    ∀ (p : List RE) (s : List Char) (k : Nat),
      matchFrom p s = some k → k ≤ s.length := by
  intro p
  induction p with
  | nil =>
    intro s k h
    simp only [matchFrom, Option.some.injEq] at h
    omega
  | cons e ps ih =>
    intro s k h
    cases e with
    | lit c =>
      cases s with
      | nil => exact absurd h (by simp [matchFrom])
      | cons x xs =>
        rw [matchFrom] at h
        by_cases hx : x = c
        · rw [if_pos hx] at h
          rcases hm : matchFrom ps xs with _ | m
          · rw [hm] at h; exact absurd h (by simp)
          · rw [hm] at h
            simp only [Option.map_some', Option.some.injEq] at h
            have := ih xs m hm
            simp only [List.length_cons]
            omega
        · rw [if_neg hx] at h; exact absurd h (by simp)
    | digitPlus =>
      rw [matchFrom] at h
      by_cases hn : countLeading isPyDigit s = 0
      · simp [hn] at h
      · rw [if_neg hn] at h
        obtain ⟨j, m, _, hj, hc, hk⟩ := tryDesc_inv h
        have hm := ih _ _ hc
        have hcl := countLeading_le_length isPyDigit s
        simp only [List.length_drop] at hm
        omega
    | wsStar =>
      rw [matchFrom] at h
      obtain ⟨j, m, _, hj, hc, hk⟩ := tryDesc_inv h
      have hm := ih _ _ hc
      have hcl := countLeading_le_length isPySpace s
      simp only [List.length_drop] at hm
      omega
    | eol =>
      rw [matchFrom] at h
      by_cases hs : s = [] ∨ s = ['\n']
      · rw [if_pos hs] at h
        exact ih s k h
      · rw [if_neg hs] at h; exact absurd h (by simp)

theorem subAuxF_nil (p : List RE) (r : List Char) (fuel : Nat) :
    subAuxF p r fuel [] = if (matchFrom p []).isSome then r else [] := by
  cases fuel <;> rfl

theorem subAuxF_fuelIrrel (p : List RE) (r : List Char) :
    ∀ (n : Nat) (s : List Char), s.length ≤ n → ∀ fuel fuel2 : Nat,
      s.length ≤ fuel → s.length ≤ fuel2 →
      subAuxF p r fuel s = subAuxF p r fuel2 s := by
  intro n
  induction n with
  | zero =>
    intro s hs fuel fuel2 _ _
    have : s = [] := List.length_eq_zero.mp (Nat.le_zero.mp hs)
    subst this
    rw [subAuxF_nil, subAuxF_nil]
  | succ n ih =>
    intro s hs fuel fuel2 h1 h2
    cases s with
    | nil => rw [subAuxF_nil, subAuxF_nil]
    | cons c cs =>
      simp only [List.length_cons] at hs h1 h2
      cases fuel with
      | zero => omega
      | succ f =>
        cases fuel2 with
        | zero => omega
        | succ g =>
          rcases hm : matchFrom p (c :: cs) with _ | k
          · simp only [subAuxF, hm]
            rw [ih cs (by omega) f g (by omega) (by omega)]
          · cases k with
            | zero =>
              simp only [subAuxF, hm]
              rw [ih cs (by omega) f g (by omega) (by omega)]
            | succ k =>
              simp only [subAuxF, hm]
              rw [ih (List.drop k cs)
                    (by simp only [List.length_drop]; omega) f g
                    (by simp only [List.length_drop]; omega)
                    (by simp only [List.length_drop]; omega)]

theorem subAux_nil (p : List RE) (r : List Char) :
    subAux p r [] = if (matchFrom p []).isSome then r else [] := by
  rw [subAux, subAuxF_nil]

theorem subAux_cons_none {p : List RE} {c : Char} {cs : List Char}
    (r : List Char) (h : matchFrom p (c :: cs) = none) :
    subAux p r (c :: cs) = c :: subAux p r cs := by
  simp only [subAux, List.length_cons, subAuxF, h]

theorem subAux_cons_zero {p : List RE} {c : Char} {cs : List Char}
    (r : List Char) (h : matchFrom p (c :: cs) = some 0) :
    subAux p r (c :: cs) = r ++ c :: subAux p r cs := by
  simp only [subAux, List.length_cons, subAuxF, h]

theorem subAux_cons_succ {p : List RE} {c : Char} {cs : List Char} {k : Nat}
    (r : List Char) (h : matchFrom p (c :: cs) = some (k + 1)) :
    subAux p r (c :: cs) = r ++ subAux p r (List.drop k cs) := by
  simp only [subAux, List.length_cons, subAuxF, h]
  exact congrArg (r ++ ·)
    (subAuxF_fuelIrrel p r cs.length (List.drop k cs)
      (by simp only [List.length_drop]; omega) cs.length
      (List.drop k cs).length
      (by simp only [List.length_drop]; omega) (le_refl _))

/-! ## The pattern language: soundness and completeness of the matcher -/

theorem countLeading_all_append {f : Char → Bool} :
    ∀ {d : List Char}, d.all f = true → ∀ t : List Char,
      countLeading f (d ++ t) = d.length + countLeading f t := by
  intro d hd
  induction d with
  | nil => intro t; simp
  | cons c cs ih =>
    intro t
    simp only [List.all_cons, Bool.and_eq_true] at hd
    simp only [List.cons_append, countLeading, hd.1, if_pos, List.length_cons,
      List.append_eq]
    rw [ih hd.2 t]
    omega

theorem countLeading_head_false {f : Char → Bool} {c : Char}
    {cs : List Char} (h : f c = false) : countLeading f (c :: cs) = 0 := by
  simp [countLeading, h]

theorem take_all_of_le_countLeading {f : Char → Bool} :
    ∀ (s : List Char) (j : Nat), j ≤ countLeading f s →
      (List.take j s).all f = true := by
  intro s
  induction s with
  | nil =>
    intro j hj
    simp [countLeading] at hj
    subst hj
    simp
  | cons c cs ih =>
    intro j hj
    simp only [countLeading] at hj
    by_cases hc : f c = true
    · rw [if_pos hc] at hj
      cases j with
      | zero => simp
      | succ j =>
        simp only [List.take_succ_cons, List.all_cons, hc, Bool.true_and]
        exact ih j (by omega)
    · rw [if_neg hc] at hj
      have : j = 0 := Nat.le_zero.mp hj
      subst this
      simp

theorem Gen.genAppend {ps qs : List RE} {w1 w2 : List Char}
    (h1 : Gen ps w1) (h2 : Gen qs w2) : Gen (ps ++ qs) (w1 ++ w2) := by
  induction h1 with
  | nil => simpa using h2
  | lit _ ih => exact Gen.lit ih
  | digitPlus hne hall _ ih =>
    rw [List.append_assoc]
    exact Gen.digitPlus hne hall ih
  | wsStar hall _ ih =>
    rw [List.append_assoc]
    exact Gen.wsStar hall ih

theorem Gen_append_inv {ps qs : List RE} :
    ∀ {w : List Char}, Gen (ps ++ qs) w →
      ∃ w1 w2, w = w1 ++ w2 ∧ Gen ps w1 ∧ Gen qs w2 := by
  induction ps with
  | nil =>
    intro w h
    exact ⟨[], w, rfl, Gen.nil, by simpa using h⟩
  | cons e ps ih =>
    intro w h
    rw [List.cons_append] at h
    cases h with
    | lit h =>
      obtain ⟨w1, w2, rfl, hg1, hg2⟩ := ih h
      exact ⟨_ :: w1, w2, rfl, Gen.lit hg1, hg2⟩
    | digitPlus hne hall h =>
      obtain ⟨w1, w2, rfl, hg1, hg2⟩ := ih h
      exact ⟨_ ++ w1, w2, by rw [List.append_assoc],
        Gen.digitPlus hne hall hg1, hg2⟩
    | wsStar hall h =>
      obtain ⟨w1, w2, rfl, hg1, hg2⟩ := ih h
      exact ⟨_ ++ w1, w2, by rw [List.append_assoc],
        Gen.wsStar hall hg1, hg2⟩

theorem Gen_lits_inv {L : List Char} :
    ∀ {w : List Char}, Gen (lits L) w → w = L := by
  induction L with
  | nil =>
    intro w h
    cases h
    rfl
  | cons c L ih =>
    intro w h
    cases h with
    | lit h => rw [ih h]

theorem Gen_lits (L : List Char) : Gen (lits L) L := by
  induction L with
  | nil => exact Gen.nil
  | cons c L ih => exact Gen.lit ih

theorem Gen_chars {C : Char → Bool} :
    ∀ {ps : List RE} {w : List Char}, (∀ e ∈ ps, reCharsOK C e) →
      Gen ps w → w.all C = true := by
  intro ps w hC h
  induction h with
  | nil => rfl
  | lit _ ih =>
    rename_i c ps2 w2 _
    have hc := hC (.lit c) (by simp)
    simp only [reCharsOK] at hc
    simp only [List.all_cons, hc, Bool.true_and]
    exact ih fun e he => hC e (by simp [he])
  | digitPlus hne hall _ ih =>
    rename_i d ps2 w2 _
    have hc := hC .digitPlus (by simp)
    simp only [reCharsOK] at hc
    rw [List.all_append]
    refine (Bool.and_eq_true _ _).mpr ⟨?_, ih fun e he => hC e (by simp [he])⟩
    rw [List.all_eq_true] at hall ⊢
    exact fun c hcd => hc c (hall c hcd)
  | wsStar hall _ ih =>
    rename_i d ps2 w2 _
    have hc := hC .wsStar (by simp)
    simp only [reCharsOK] at hc
    rw [List.all_append]
    refine (Bool.and_eq_true _ _).mpr ⟨?_, ih fun e he => hC e (by simp [he])⟩
    rw [List.all_eq_true] at hall ⊢
    exact fun c hcd => hc c (hall c hcd)

theorem matchFrom_sound :
    ∀ (p : List RE) (s : List Char) (k : Nat), RE.eol ∉ p →
      matchFrom p s = some k → Gen p (List.take k s) := by
  intro p
  induction p with
  | nil =>
    intro s k _ h
    simp only [matchFrom, Option.some.injEq] at h
    subst h
    exact Gen.nil
  | cons e ps ih =>
    intro s k he h
    have heps : RE.eol ∉ ps := fun hx => he (List.mem_cons_of_mem e hx)
    cases e with
    | lit c =>
      cases s with
      | nil => exact absurd h (by simp [matchFrom])
      | cons x xs =>
        rw [matchFrom] at h
        by_cases hx : x = c
        · rw [if_pos hx] at h
          rcases hm : matchFrom ps xs with _ | m
          · rw [hm] at h; exact absurd h (by simp)
          · rw [hm] at h
            simp only [Option.map_some', Option.some.injEq] at h
            subst hx
            rw [← h, List.take_succ_cons]
            exact Gen.lit (ih xs m heps hm)
        · rw [if_neg hx] at h; exact absurd h (by simp)
    | digitPlus =>
      rw [matchFrom] at h
      by_cases hn : countLeading isPyDigit s = 0
      · simp [hn] at h
      · rw [if_neg hn] at h
        obtain ⟨j, m, hj1, hj2, hc, hk⟩ := tryDesc_inv h
        subst hk
        rw [List.take_add]
        refine Gen.digitPlus ?_ (take_all_of_le_countLeading s j hj2)
          (ih _ m heps hc)
        have hjl : j ≤ s.length :=
          le_trans hj2 (countLeading_le_length isPyDigit s)
        intro hcon
        have := congrArg List.length hcon
        simp only [List.length_take, List.length_nil] at this
        omega
    | wsStar =>
      rw [matchFrom] at h
      obtain ⟨j, m, hj1, hj2, hc, hk⟩ := tryDesc_inv h
      subst hk
      rw [List.take_add]
      exact Gen.wsStar (take_all_of_le_countLeading s j hj2) (ih _ m heps hc)
    | eol => exact absurd (by simp : RE.eol ∈ RE.eol :: ps) he

theorem matchFrom_complete :
    ∀ {p : List RE} {w : List Char}, Gen p w → ∀ rest : List Char,
      matchFrom p (w ++ rest) ≠ none := by
  intro p w h
  induction h with
  | nil => intro rest; simp [matchFrom]
  | lit _ ih =>
    intro rest
    rw [List.cons_append, matchFrom, if_pos rfl]
    rcases hm : matchFrom _ _ with _ | m
    · exact absurd hm (ih rest)
    · simp
  | digitPlus hne hall _ ih =>
    rename_i d ps2 w2 _
    intro rest
    rw [List.append_assoc, matchFrom]
    have hcl := countLeading_all_append hall (w2 ++ rest)
    have hd : 1 ≤ d.length := by
      cases d with
      | nil => exact absurd rfl hne
      | cons _ _ => simp
    rw [if_neg (by omega)]
    rcases hm : matchFrom ps2 (w2 ++ rest) with _ | m
    · exact absurd hm (ih rest)
    · have : matchFrom ps2 (List.drop d.length (d ++ (w2 ++ rest))) = some m := by
        rw [List.drop_left]
        exact hm
      have hs := @tryDesc_isSome (matchFrom ps2) (d ++ (w2 ++ rest)) 1
        (countLeading isPyDigit (d ++ (w2 ++ rest))) _ _
        hd (by omega) this
      intro hnone
      rw [hnone] at hs
      exact absurd hs (by simp)
  | wsStar hall _ ih =>
    rename_i d ps2 w2 _
    intro rest
    rw [List.append_assoc, matchFrom]
    have hcl := countLeading_all_append hall (w2 ++ rest)
    rcases hm : matchFrom ps2 (w2 ++ rest) with _ | m
    · exact absurd hm (ih rest)
    · have : matchFrom ps2 (List.drop d.length (d ++ (w2 ++ rest))) = some m := by
        rw [List.drop_left]
        exact hm
      have hs := @tryDesc_isSome (matchFrom ps2) (d ++ (w2 ++ rest)) 0
        (countLeading isPySpace (d ++ (w2 ++ rest))) _ _
        (Nat.zero_le _) (by omega) this
      intro hnone
      rw [hnone] at hs
      exact absurd hs (by simp)

/-! ## The `$`-anchored patterns of `oapigen.ps1` never match -/

theorem matchFrom_oapiPs1_none (s : List Char) :
    matchFrom oapiPs1Pat s = none := by
  have hdef : oapiPs1Pat = .eol :: (lits oapiPre ++ verTail) := rfl
  rw [hdef, matchFrom]
  by_cases hs : s = [] ∨ s = ['\n']
  · rw [if_pos hs]
    rcases hs with h | h <;> subst h <;> decide
  · rw [if_neg hs]

theorem matchFrom_specPs1_none (s : List Char) :
    matchFrom specPs1Pat s = none := by
  have hdef : specPs1Pat = .eol :: (lits specPre ++ verTail) := rfl
  rw [hdef, matchFrom]
  by_cases hs : s = [] ∨ s = ['\n']
  · rw [if_pos hs]
    rcases hs with h | h <;> subst h <;> decide
  · rw [if_neg hs]

theorem subAux_id_of_never {p : List RE}
    (hnever : ∀ s, matchFrom p s = none) (r : List Char) :
    ∀ u, subAux p r u = u := by
  intro u
  induction u with
  | nil => simp [subAux_nil, hnever []]
  | cons c cs ih => rw [subAux_cons_none r (hnever _), ih]

/-! ## Templates without backslashes are literal -/

theorem parseTemplate_no_backslash :
    ∀ t : List Char, '\\' ∉ t → parseTemplate t = some t := by
  intro t
  induction t with
  | nil => intro _; rfl
  | cons c cs ih =>
    intro h
    have hc : c ≠ '\\' := fun e => h (by simp [e])
    have hcs : '\\' ∉ cs := fun e => h (List.mem_cons_of_mem c e)
    have hstep : parseTemplate (c :: cs) = (parseTemplate cs).map (c :: ·) := by
      rw [parseTemplate.eq_def]
      split
      · rename_i heq; exact absurd heq (by simp)
      · rename_i heq; injection heq with h1 _; exact absurd h1 hc
      · rename_i heq; injection heq with h1 _; exact absurd h1 hc
      · rename_i heq; injection heq with h1 _; exact absurd h1 hc
      · rename_i heq; injection heq with h1 _; exact absurd h1 hc
      · rename_i heq; injection heq with h1 _; exact absurd h1 hc
      · rename_i heq
        injection heq with h1 h2
        subst h1
        subst h2
        rfl
    rw [hstep, ih hcs]
    rfl

/-! ## Index bridges and the overlap lemma -/

theorem getD_take {l : List Char} {k j : Nat} {d : Char} (h : j < k)
    (h2 : j < l.length) : (l.take k).getD j d = l.getD j d := by
  rw [List.getD_eq_getElem _ _ (by simp; omega), List.getD_eq_getElem _ _ h2]
  exact List.getElem_take _

theorem getD_of_all {C : Char → Bool} {l : List Char} (h : l.all C = true)
    {n : Nat} {d : Char} (hn : n < l.length) : C (l.getD n d) = true := by
  rw [List.getD_eq_getElem _ _ hn]
  exact List.all_eq_true.mp h _ (List.getElem_mem _)

theorem crossOK_no_embed {P : List Char} {C : Char → Bool} {Q : List Char}
    (hok : crossOKb P C Q = true) {v M : List Char} (hM : M = P ++ v)
    (hv : v.all C = true) {s : Nat} (hs : 1 ≤ s)
    (hlen : s + Q.length ≤ M.length)
    (hemb : ∀ i, i < Q.length → M.getD (s + i) ' ' = Q.getD i ' ') :
    False := by
  simp only [crossOKb, Bool.and_eq_true, List.all_eq_true, List.mem_range,
    decide_eq_true_eq, Bool.or_eq_true, List.any_eq_true, Bool.not_eq_true',
    ne_eq] at hok
  obtain ⟨⟨⟨hPne, hQne⟩, hQ0⟩, hshift⟩ := hok
  have hQlen : 1 ≤ Q.length := by
    cases Q with
    | nil => exact absurd rfl hQne
    | cons _ _ => simp
  have hMlen : M.length = P.length + v.length := by
    rw [hM, List.length_append]
  by_cases hsP : s < P.length
  · obtain hwit := hshift s hsP
    rcases hwit with h0 | ⟨i, hi, hwit⟩
    · omega
    · rcases hwit with ⟨hlt, hne2⟩ | ⟨hge, hC⟩
      · apply hne2
        have h1 := hemb i hi
        rw [hM, List.getD_append _ _ _ _ hlt] at h1
        rw [← h1]
      · have h1 := hemb i hi
        rw [hM, List.getD_append_right _ _ _ _ hge] at h1
        have hvC : C (v.getD (s + i - P.length) ' ') = true :=
          getD_of_all hv (by omega)
        rw [h1] at hvC
        rw [hvC] at hC
        exact absurd hC (by simp)
  · have h1 := hemb 0 (by omega)
    rw [hM, List.getD_append_right _ _ _ _ (by omega)] at h1
    have hvC : C (v.getD (s + 0 - P.length) ' ') = true :=
      getD_of_all hv (by omega)
    rw [h1] at hvC
    have : Q.getD 0 ' ' = Q.headD ' ' := by
      cases Q <;> rfl
    rw [this] at hvC
    rw [hvC] at hQ0
    exact absurd hQ0 (by simp)

/-! ## Decomposition of a substitution pass -/

theorem subAux_decomp {p : List RE} (r : List Char) (hp : RE.eol ∉ p)
    (hnil : ¬ Gen p []) :
    ∀ u : List Char, subAux p r u = u ∨
      ∃ a m rest, u = a ++ m ++ rest ∧ Gen p m ∧ m ≠ [] ∧
        subAux p r u = a ++ r ++ subAux p r rest := by
  intro u
  induction u with
  | nil =>
    left
    rcases hm : matchFrom p [] with _ | k
    · simp [subAux_nil, hm]
    · have := matchFrom_sound p [] k hp hm
      rw [List.take_nil] at this
      exact absurd this hnil
  | cons c cs ih =>
    rcases hm : matchFrom p (c :: cs) with _ | k
    · rcases ih with h1 | ⟨a, m, rest, hu, hgen, hne, hsub⟩
      · left
        rw [subAux_cons_none r hm, h1]
      · right
        refine ⟨c :: a, m, rest, by rw [hu]; rfl, hgen, hne, ?_⟩
        rw [subAux_cons_none r hm, hsub]
        rfl
    · cases k with
      | zero =>
        have := matchFrom_sound p (c :: cs) 0 hp hm
        rw [List.take_zero] at this
        exact absurd this hnil
      | succ k =>
        right
        refine ⟨[], List.take (k + 1) (c :: cs), List.drop k cs, ?_,
          matchFrom_sound p (c :: cs) (k + 1) hp hm, by simp, ?_⟩
        · have : List.drop k cs = List.drop (k + 1) (c :: cs) := rfl
          rw [this, List.nil_append, List.take_append_drop]
        · rw [subAux_cons_succ r hm, List.nil_append]

/-! ## Substitution does not create matches at unmatched positions -/

theorem crossOKb_ne {P : List Char} {C : Char → Bool} {Q : List Char}
    (h : crossOKb P C Q = true) : P ≠ [] ∧ Q ≠ [] := by
  simp only [crossOKb, Bool.and_eq_true, decide_eq_true_eq, ne_eq] at h
  exact ⟨h.1.1.1, h.1.1.2⟩

theorem noCreate {p1 p2 : List RE} {r2 : List Char} {P1 P2 : List Char}
    {C1 : Char → Bool}
    (hp1 : RE.eol ∉ p1) (hp2 : RE.eol ∉ p2)
    (hshape1 : ∀ w, Gen p1 w → ∃ v, w = P1 ++ v ∧ v.all C1 = true)
    (hpre2 : ∀ w, Gen p2 w → P2 <+: w)
    (hr2 : Gen p2 r2)
    (hcross : crossOKb P1 C1 P2 = true)
    (hnil2 : ¬ Gen p2 [])
    {c : Char} {cs : List Char}
    (h : matchFrom p1 (c :: cs) = none) :
    matchFrom p1 (c :: subAux p2 r2 cs) = none := by
  rcases subAux_decomp r2 hp2 hnil2 cs with hid | ⟨a, m, rest, hcs, hgm, _, hsub⟩
  · rw [hid]; exact h
  · rw [hsub]
    rcases hk : matchFrom p1 (c :: (a ++ r2 ++ subAux p2 r2 rest)) with _ | k
    · rfl
    exfalso
    obtain ⟨r2t, hr2t⟩ := hpre2 r2 hr2
    obtain ⟨mt, hmt⟩ := hpre2 m hgm
    have hM := matchFrom_sound p1 _ k hp1 hk
    obtain ⟨vM, hMeq, hvM⟩ := hshape1 _ hM
    have hklen := matchFrom_le_length p1 _ k hk
    have hX : c :: (a ++ r2 ++ subAux p2 r2 rest) =
        (c :: a) ++ (r2 ++ subAux p2 r2 rest) := by simp
    have hXcs : c :: cs = (c :: a) ++ (m ++ rest) := by
      rw [hcs]; simp
    have hs : (c :: a).length = a.length + 1 := List.length_cons ..
    -- a match that stays inside the shared prefix, or reaches at most
    -- `P2.length` characters into the replacement, is also a match of the
    -- original text, contradicting `h`
    have contra : List.take k (c :: (a ++ r2 ++ subAux p2 r2 rest)) =
        List.take k (c :: cs) → False := by
      intro heq
      have hcomp := matchFrom_complete hM (List.drop k (c :: cs))
      rw [heq, List.take_append_drop] at hcomp
      exact hcomp h
    by_cases hks : k ≤ a.length + 1
    · apply contra
      rw [hX, hXcs, List.take_append_of_le_length (by omega),
        List.take_append_of_le_length (by omega)]
    · by_cases hkP : k - (a.length + 1) ≤ P2.length
      · apply contra
        have hpin : ∀ (n : Nat) (l2 : List Char),
            List.take n ((c :: a) ++ l2)
              = List.take n (c :: a) ++ List.take (n - (c :: a).length) l2 :=
          fun _ _ => List.take_append_eq_append_take
        rw [hX, hXcs, List.take_append_eq_append_take, hpin,
          List.take_of_length_le (by omega), hs]
        have h1 : List.take (k - (a.length + 1)) (r2 ++ subAux p2 r2 rest)
            = List.take (k - (a.length + 1)) P2 := by
          rw [← hr2t, List.append_assoc,
            List.take_append_of_le_length (by omega)]
        have h2 : List.take (k - (a.length + 1)) (m ++ rest)
            = List.take (k - (a.length + 1)) P2 := by
          rw [← hmt, List.append_assoc,
            List.take_append_of_le_length (by omega)]
        rw [h1, h2]
      · -- the match would contain a full copy of `P2` at a positive offset
        have hxlen : (c :: (a ++ r2 ++ subAux p2 r2 rest)).length =
            a.length + 1 + (r2.length + (subAux p2 r2 rest).length) := by
          simp only [List.length_cons, List.length_append]
          omega
        have hP2r2 : P2.length ≤ r2.length := by
          rw [← hr2t, List.length_append]
          omega
        have hMlen : (List.take k (c :: (a ++ r2 ++ subAux p2 r2 rest))).length
            = k := by
          rw [List.length_take]
          omega
        refine crossOK_no_embed hcross hMeq hvM
          (s := a.length + 1) (by omega) (by omega) ?_
        intro i hi
        have hik : a.length + 1 + i < k := by omega
        have hixlen : a.length + 1 + i <
            (c :: (a ++ r2 ++ subAux p2 r2 rest)).length := by omega
        rw [getD_take hik hixlen, hX,
          List.getD_append_right _ _ _ _ (by omega), hs]
        have : a.length + 1 + i - (a.length + 1) = i := by omega
        rw [this, List.getD_append _ _ _ _ (by omega), ← hr2t,
          List.getD_append _ _ _ _ (by omega)]

/-! ## Stable strings: fixed points of the substitution scan -/

theorem getD_drop {n i : Nat} {l : List Char} {d : Char}
    (h : n + i < l.length) : (List.drop n l).getD i d = l.getD (n + i) d := by
  rw [List.getD_eq_getElem _ _ (by simp; omega), List.getD_eq_getElem _ _ h]
  rw [List.getElem_drop]

theorem getLast?_eq_getD {l : List Char} (h : l ≠ []) (d : Char) :
    l.getLast? = some (l.getD (l.length - 1) d) := by
  have hl : 0 < l.length := List.length_pos.mpr h
  rw [List.getLast?_eq_getElem?]
  rw [List.getD_eq_getElem l d (by omega)]
  rw [List.getElem?_eq_getElem (by omega)]

theorem headD_append_left {P z : List Char} (h : P ≠ []) (d : Char) :
    (P ++ z).headD d = P.headD d := by
  cases P with
  | nil => exact absurd rfl h
  | cons a b => rfl

theorem Stable_subAux_id {p : List RE} {r : List Char}
    (hnilmatch : matchFrom p [] = none)
    (hA : ∀ tail, matchFrom p (r ++ tail) = some r.length)
    (hrne : r ≠ []) :
    ∀ u, Stable p r u → subAux p r u = u := by
  intro u hst
  induction hst with
  | nil => simp [subAux_nil, hnilmatch]
  | cons hmn _ ih =>
    rw [subAux_cons_none r hmn, ih]
  | block _ ih =>
    rename_i u2 _
    obtain ⟨rc, rt, hr⟩ := List.exists_cons_of_ne_nil hrne
    have hm : matchFrom p (rc :: (rt ++ u2)) = some (rt.length + 1) := by
      have h := hA u2
      rw [hr] at h
      simpa using h
    have hru : r ++ u2 = rc :: (rt ++ u2) := by rw [hr]; rfl
    rw [hru, subAux_cons_succ r hm, List.drop_left, ih]
    exact hru

theorem Stable_of_subAux {p : List RE} {r : List Char} {P : List Char}
    {C : Char → Bool}
    (hp : RE.eol ∉ p)
    (hshape : ∀ w, Gen p w → ∃ v, w = P ++ v ∧ v.all C = true)
    (hr : Gen p r)
    (hcross : crossOKb P C P = true) :
    ∀ t, Stable p r (subAux p r t) := by
  have hPne : P ≠ [] := (crossOKb_ne hcross).1
  have hnil : ¬ Gen p [] := by
    intro hgen
    obtain ⟨v, hv, _⟩ := hshape [] hgen
    exact hPne (List.append_eq_nil.mp hv.symm).1
  have hpre : ∀ w, Gen p w → P <+: w := by
    intro w hw
    obtain ⟨v, hv, _⟩ := hshape w hw
    exact ⟨v, hv.symm⟩
  have key : ∀ (n : Nat) (t : List Char), t.length ≤ n →
      Stable p r (subAux p r t) := by
    intro n
    induction n with
    | zero =>
      intro t ht
      have : t = [] := List.length_eq_zero.mp (Nat.le_zero.mp ht)
      subst this
      rcases hm : matchFrom p [] with _ | k
      · rw [subAux_nil, hm]
        exact Stable.nil
      · have := matchFrom_sound p [] k hp hm
        rw [List.take_nil] at this
        exact absurd this hnil
    | succ n ih =>
      intro t ht
      cases t with
      | nil => exact ih [] (by simp)
      | cons c cs =>
        simp only [List.length_cons] at ht
        rcases hm : matchFrom p (c :: cs) with _ | k
        · rw [subAux_cons_none r hm]
          exact Stable.cons
            (noCreate hp hp hshape hpre hr hcross hnil hm)
            (ih cs (by omega))
        · cases k with
          | zero =>
            have := matchFrom_sound p (c :: cs) 0 hp hm
            rw [List.take_zero] at this
            exact absurd this hnil
          | succ k =>
            rw [subAux_cons_succ r hm]
            exact Stable.block
              (ih (List.drop k cs) (by simp only [List.length_drop]; omega))
  intro t
  exact key t.length t (le_refl _)

/-! ## Opacity: a block none of whose positions can start a match -/

theorem subAux_append_nomatch {p : List RE} {r : List Char} :
    ∀ {x : List Char},
      (∀ j, j < x.length → ∀ s, matchFrom p (List.drop j x ++ s) = none) →
      ∀ y, subAux p r (x ++ y) = x ++ subAux p r y := by
  intro x
  induction x with
  | nil => intro _ y; rfl
  | cons c x ih =>
    intro hop y
    have h0 : matchFrom p (c :: (x ++ y)) = none := by
      have := hop 0 (by simp) y
      simpa using this
    rw [List.cons_append, subAux_cons_none r h0,
      ih (fun j hj s => by
        have := hop (j + 1) (by simp only [List.length_cons]; omega) s
        simpa using this) y]
    rfl

theorem Stable_append_nomatch {p : List RE} {r : List Char} :
    ∀ {x : List Char},
      (∀ j, j < x.length → ∀ s, matchFrom p (List.drop j x ++ s) = none) →
      ∀ {y : List Char}, Stable p r y → Stable p r (x ++ y) := by
  intro x
  induction x with
  | nil => intro _ y hy; exact hy
  | cons c x ih =>
    intro hop y hy
    have h0 : matchFrom p (c :: (x ++ y)) = none := by
      have := hop 0 (by simp) y
      simpa using this
    rw [List.cons_append]
    exact Stable.cons h0
      (ih (fun j hj s => by
        have := hop (j + 1) (by simp only [List.length_cons]; omega) s
        simpa using this) hy)

/-! ## Cutting a stable string at the end of a foreign match -/

theorem Stable_drop {p1 p2 : List RE} {r1 : List Char}
    {P1 P2 : List Char} {C2 : Char → Bool}
    (hshape2 : ∀ w, Gen p2 w → ∃ v, w = P2 ++ v ∧ v.all C2 = true)
    (hlast2 : ∀ w, Gen p2 w → w.getLast? = some '"')
    (hpre1 : P1 <+: r1)
    (hquote1 : ∀ j, j + 1 < P1.length → P1.getD j ' ' ≠ '"')
    (hcross : crossOKb P2 C2 P1 = true)
    (hfirst : P1.headD ' ' ≠ P2.headD ' ') :
    ∀ {w : List Char}, Stable p1 r1 w → ∀ (Y : List Char) (k : Nat),
      Gen p2 (Y ++ List.take k w) → k ≤ w.length →
      Stable p1 r1 (List.drop k w) := by
  have hP2ne : P2 ≠ [] := (crossOKb_ne hcross).1
  have hP1ne : P1 ≠ [] := (crossOKb_ne hcross).2
  obtain ⟨r1t, hr1t⟩ := hpre1
  have hplrl : P1.length ≤ r1.length := by
    rw [← hr1t, List.length_append]; omega
  intro w hst
  induction hst with
  | nil =>
    intro Y k _ hk
    simp only [List.length_nil, Nat.le_zero] at hk
    subst hk
    exact Stable.nil
  | cons hmn hstu ih =>
    rename_i c u
    intro Y k hgen hk
    cases k with
    | zero => exact Stable.cons hmn hstu
    | succ k =>
      have hgen2 : Gen p2 ((Y ++ [c]) ++ List.take k u) := by
        rw [List.append_assoc]
        simpa using hgen
      simp only [List.length_cons] at hk
      exact ih (Y ++ [c]) k hgen2 (by omega)
  | block hstu ih =>
    rename_i u
    intro Y k hgen hk
    cases k with
    | zero => exact Stable.block hstu
    | succ k0 =>
      exfalso
      set k := k0 + 1 with hkdef
      have hk1 : 1 ≤ k := by omega
      obtain ⟨vZ, hZ, hvZ⟩ := hshape2 _ hgen
      have hwlen : (r1 ++ u).length = r1.length + u.length :=
        List.length_append ..
      by_cases hkp : k < P1.length
      · -- the foreign match would end strictly inside the literal prefix of
        -- `r1`, but its last character must be a quote, which occurs in the
        -- prefix only at its final position
        have htk : List.take k (r1 ++ u) = List.take k P1 := by
          rw [List.take_append_of_le_length (by omega), ← hr1t,
            List.take_append_of_le_length (by omega)]
        have hne : List.take k P1 ≠ [] := by
          intro hcon
          have := congrArg List.length hcon
          simp only [List.length_take, List.length_nil] at this
          omega
        have hlast := hlast2 _ hgen
        rw [htk] at hlast
        rw [List.getLast?_append_of_ne_nil Y hne] at hlast
        rw [getLast?_eq_getD hne ' '] at hlast
        have hlen : (List.take k P1).length = k := by
          rw [List.length_take]; omega
        rw [hlen] at hlast
        rw [getD_take (by omega) (by omega)] at hlast
        have := hquote1 (k - 1) (by omega)
        rw [Option.some.injEq] at hlast
        exact this hlast
      · -- the foreign match contains a full copy of `P1`
        have htk : List.take k (r1 ++ u) =
            P1 ++ (List.take (k - P1.length) (r1t ++ u)) := by
          rw [← hr1t, List.append_assoc, List.take_append_eq_append_take,
            List.take_of_length_le (by omega)]
        cases Y with
        | nil =>
          have hZ2 : List.take k (r1 ++ u) = P2 ++ vZ := by simpa using hZ
          have hh1 : (P2 ++ vZ).headD ' ' = P2.headD ' ' :=
            headD_append_left hP2ne ' '
          have hh2 : (P1 ++ (List.take (k - P1.length) (r1t ++ u))).headD ' '
              = P1.headD ' ' := headD_append_left hP1ne ' '
          rw [htk] at hZ2
          apply hfirst
          rw [← hh2, hZ2, hh1]
        | cons y0 Y0 =>
          have hZlen : ((y0 :: Y0) ++ List.take k (r1 ++ u)).length =
              Y0.length + 1 + k := by
            simp only [List.cons_append, List.length_cons, List.length_append,
              List.length_take]
            omega
          refine crossOK_no_embed hcross hZ hvZ
            (s := Y0.length + 1) (by omega)
            (by rw [hZlen]; omega) ?_
          intro i hi
          have : (y0 :: Y0) ++ List.take k (r1 ++ u) =
              (y0 :: Y0) ++ (P1 ++ List.take (k - P1.length) (r1t ++ u)) := by
            rw [htk]
          rw [this]
          have hslen : (y0 :: Y0).length = Y0.length + 1 := rfl
          rw [List.getD_append_right _ _ _ _ (by rw [hslen]; omega)]
          rw [hslen]
          have harith : Y0.length + 1 + i - (Y0.length + 1) = i := by omega
          rw [harith, List.getD_append _ _ _ _ (by omega)]

/-! ## Stability of one rule is preserved by applying the other rule -/

theorem Stable_preserved {p1 p2 : List RE} {r1 r2 : List Char}
    {P1 P2 : List Char} {C1 C2 : Char → Bool}
    (hp1 : RE.eol ∉ p1) (hp2 : RE.eol ∉ p2)
    (hshape1 : ∀ w, Gen p1 w → ∃ v, w = P1 ++ v ∧ v.all C1 = true)
    (hshape2 : ∀ w, Gen p2 w → ∃ v, w = P2 ++ v ∧ v.all C2 = true)
    (hlast2 : ∀ w, Gen p2 w → w.getLast? = some '"')
    (hr2 : Gen p2 r2)
    (hpre1r : P1 <+: r1)
    (hquote1 : ∀ j, j + 1 < P1.length → P1.getD j ' ' ≠ '"')
    (hcross12 : crossOKb P1 C1 P2 = true)
    (hcross21 : crossOKb P2 C2 P1 = true)
    (hfirst : P1.headD ' ' ≠ P2.headD ' ')
    (hop21 : ∀ j, j < r1.length → ∀ s,
      matchFrom p2 (List.drop j r1 ++ s) = none)
    (hop12 : ∀ j, j < r2.length → ∀ s,
      matchFrom p1 (List.drop j r2 ++ s) = none)
    (hr1ne : r1 ≠ []) :
    ∀ w, Stable p1 r1 w → Stable p1 r1 (subAux p2 r2 w) := by
  have hP2ne : P2 ≠ [] := (crossOKb_ne hcross21).1
  have hnil2 : ¬ Gen p2 [] := by
    intro hgen
    obtain ⟨v, hv, _⟩ := hshape2 [] hgen
    exact hP2ne (List.append_eq_nil.mp hv.symm).1
  have hpre2 : ∀ w, Gen p2 w → P2 <+: w := by
    intro w hw
    obtain ⟨v, hv, _⟩ := hshape2 w hw
    exact ⟨v, hv.symm⟩
  have hnilcase : Stable p1 r1 (subAux p2 r2 []) := by
    rcases hm : matchFrom p2 [] with _ | k
    · rw [subAux_nil, hm]
      exact Stable.nil
    · have := matchFrom_sound p2 [] k hp2 hm
      rw [List.take_nil] at this
      exact absurd this hnil2
  have key : ∀ (n : Nat) (w : List Char), w.length ≤ n →
      Stable p1 r1 w → Stable p1 r1 (subAux p2 r2 w) := by
    intro n
    induction n with
    | zero =>
      intro w hw _
      have : w = [] := List.length_eq_zero.mp (Nat.le_zero.mp hw)
      subst this
      exact hnilcase
    | succ n ih =>
      intro w hw hst
      cases hst with
      | nil => exact hnilcase
      | cons hmn hstu =>
        rename_i c u
        simp only [List.length_cons] at hw
        rcases hm2 : matchFrom p2 (c :: u) with _ | k
        · rw [subAux_cons_none r2 hm2]
          exact Stable.cons
            (noCreate hp1 hp2 hshape1 hpre2 hr2 hcross12 hnil2 hmn)
            (ih u (by omega) hstu)
        · cases k with
          | zero =>
            have := matchFrom_sound p2 (c :: u) 0 hp2 hm2
            rw [List.take_zero] at this
            exact absurd this hnil2
          | succ k =>
            rw [subAux_cons_succ r2 hm2]
            have hgen := matchFrom_sound p2 (c :: u) (k + 1) hp2 hm2
            have hk1 := matchFrom_le_length p2 _ _ hm2
            have hdrop : Stable p1 r1 (List.drop (k + 1) (c :: u)) :=
              Stable_drop hshape2 hlast2 hpre1r hquote1 hcross21 hfirst
                (Stable.cons hmn hstu) [] (k + 1) (by simpa using hgen)
                (by simpa using hk1)
            rw [List.drop_succ_cons] at hdrop
            exact Stable_append_nomatch hop12
              (ih (List.drop k u)
                (by simp only [List.length_drop]; omega) hdrop)
      | block hstu =>
        rename_i u
        have hr1len : 1 ≤ r1.length := by
          cases r1 with
          | nil => exact absurd rfl hr1ne
          | cons _ _ => simp
        rw [subAux_append_nomatch hop21 u]
        refine Stable.block (ih u ?_ hstu)
        rw [List.length_append] at hw
        omega
  intro w hst
  exact key w.length w (le_refl _) hst

/-! ## Exact matches of the generated replacement strings -/

theorem matchFrom_lit_cons (c : Char) (ps : List RE) (s : List Char) :
    matchFrom (.lit c :: ps) (c :: s) = (matchFrom ps s).map (· + 1) := by
  simp [matchFrom]

theorem matchFrom_lits_prefix :
    ∀ (L : List Char) (ps : List RE) (s : List Char),
      matchFrom (lits L ++ ps) (L ++ s) = (matchFrom ps s).map (· + L.length) := by
  intro L
  induction L with
  | nil =>
    intro ps s
    rcases hv : matchFrom ps s with _ | m <;> simp [lits, hv]
  | cons c L ih =>
    intro ps s
    have hl : lits (c :: L) ++ ps = .lit c :: (lits L ++ ps) := rfl
    rw [hl, List.cons_append, matchFrom_lit_cons, ih]
    rcases hv : matchFrom ps s with _ | m <;> simp [hv]
    omega

theorem matchFrom_digitPlus_exact {d : List Char} {ps : List RE}
    {s2 : List Char} {m : Nat} (hne : d ≠ []) (hall : d.all isPyDigit = true)
    (hstop : countLeading isPyDigit s2 = 0) (hm : matchFrom ps s2 = some m) :
    matchFrom (.digitPlus :: ps) (d ++ s2) = some (d.length + m) := by
  have hcl : countLeading isPyDigit (d ++ s2) = d.length := by
    rw [countLeading_all_append hall, hstop]
    omega
  have hd1 : 1 ≤ d.length := by
    cases d with
    | nil => exact absurd rfl hne
    | cons _ _ => simp
  rw [matchFrom]
  simp only [hcl]
  rw [if_neg (by omega)]
  have hdrop : matchFrom ps (List.drop d.length (d ++ s2)) = some m := by
    rw [List.drop_left]
    exact hm
  exact tryDesc_greedy (by omega) hdrop

theorem matchFrom_wsStar_exact {d : List Char} {ps : List RE}
    {s2 : List Char} {m : Nat} (hall : d.all isPySpace = true)
    (hstop : countLeading isPySpace s2 = 0) (hm : matchFrom ps s2 = some m) :
    matchFrom (.wsStar :: ps) (d ++ s2) = some (d.length + m) := by
  have hcl : countLeading isPySpace (d ++ s2) = d.length := by
    rw [countLeading_all_append hall, hstop]
    omega
  rw [matchFrom]
  rw [hcl]
  have hdrop : matchFrom ps (List.drop d.length (d ++ s2)) = some m := by
    rw [List.drop_left]
    exact hm
  exact tryDesc_greedy (by omega) hdrop

theorem matchFrom_verTail_exact {v : List Char} (hv : VersionShape v)
    (tail : List Char) :
    matchFrom verTail (v ++ '"' :: tail) = some (v.length + 1) := by
  obtain ⟨d1, d2, d3, h1ne, h2ne, h3ne, h1a, h2a, h3a, rfl⟩ := hv
  have t0 : matchFrom [RE.lit '"'] ('"' :: tail) = some 1 := by
    simp [matchFrom]
  have t1 : matchFrom [RE.digitPlus, RE.lit '"'] (d3 ++ '"' :: tail)
      = some (d3.length + 1) :=
    matchFrom_digitPlus_exact h3ne h3a (countLeading_head_false (by decide)) t0
  have t2 : matchFrom [RE.lit '.', RE.digitPlus, RE.lit '"']
      ('.' :: (d3 ++ '"' :: tail)) = some (d3.length + 2) := by
    rw [matchFrom_lit_cons, t1]
    rfl
  have t3 : matchFrom [RE.digitPlus, RE.lit '.', RE.digitPlus, RE.lit '"']
      (d2 ++ '.' :: (d3 ++ '"' :: tail)) = some (d2.length + (d3.length + 2)) :=
    matchFrom_digitPlus_exact h2ne h2a (countLeading_head_false (by decide)) t2
  have t4 : matchFrom
      [RE.lit '.', RE.digitPlus, RE.lit '.', RE.digitPlus, RE.lit '"']
      ('.' :: (d2 ++ '.' :: (d3 ++ '"' :: tail)))
      = some (d2.length + (d3.length + 2) + 1) := by
    rw [matchFrom_lit_cons, t3]
    rfl
  have t5 : matchFrom verTail
      (d1 ++ '.' :: (d2 ++ '.' :: (d3 ++ '"' :: tail)))
      = some (d1.length + (d2.length + (d3.length + 2) + 1)) :=
    matchFrom_digitPlus_exact h1ne h1a (countLeading_head_false (by decide)) t4
  have heq : (d1 ++ '.' :: d2 ++ '.' :: d3) ++ '"' :: tail
      = d1 ++ '.' :: (d2 ++ '.' :: (d3 ++ '"' :: tail)) := by
    simp
  rw [heq, t5]
  simp only [Option.some.injEq, List.length_append, List.length_cons]
  omega

theorem Amatch_litsVer {M : List Char} {v : List Char} (hv : VersionShape v)
    (tail : List Char) :
    matchFrom (lits M ++ verTail) ((M ++ v ++ ['"']) ++ tail)
      = some (M ++ v ++ ['"']).length := by
  have heq : (M ++ v ++ ['"']) ++ tail = M ++ (v ++ '"' :: tail) := by
    simp
  rw [heq, matchFrom_lits_prefix, matchFrom_verTail_exact hv]
  simp only [Option.map_some', Option.some.injEq, List.length_append,
    List.length_cons, List.length_nil]
  omega

theorem Amatch_cargo {v : List Char} (hv : VersionShape v) (tail : List Char) :
    matchFrom cargoPat (cargoTmpl v ++ tail) = some (cargoTmpl v).length := by
  have hsplit : "version = \"".data
      = cargoPre ++ [' ', '=', ' ', '"'] := by decide
  have heq : cargoTmpl v ++ tail
      = cargoPre ++ (' ' :: '=' :: ' ' :: '"' :: (v ++ '"' :: tail)) := by
    rw [cargoTmpl, hsplit]
    simp
  have hpat : cargoPat = lits cargoPre ++
      ([RE.wsStar, RE.lit '=', RE.wsStar, RE.lit '"'] ++ verTail) := by
    rw [cargoPat, List.append_assoc]
  have tv : matchFrom verTail (v ++ '"' :: tail) = some (v.length + 1) :=
    matchFrom_verTail_exact hv tail
  have t1 : matchFrom (RE.lit '"' :: verTail) ('"' :: (v ++ '"' :: tail))
      = some (v.length + 2) := by
    rw [matchFrom_lit_cons, tv]
    rfl
  have t2 : matchFrom (RE.wsStar :: RE.lit '"' :: verTail)
      (' ' :: '"' :: (v ++ '"' :: tail)) = some (1 + (v.length + 2)) := by
    have := @matchFrom_wsStar_exact [' '] (RE.lit '"' :: verTail)
      ('"' :: (v ++ '"' :: tail)) _ (by decide)
      (countLeading_head_false (by decide)) t1
    simpa using this
  have t3 : matchFrom (RE.lit '=' :: RE.wsStar :: RE.lit '"' :: verTail)
      ('=' :: ' ' :: '"' :: (v ++ '"' :: tail))
      = some (1 + (v.length + 2) + 1) := by
    rw [matchFrom_lit_cons, t2]
    rfl
  have t4 : matchFrom
      (RE.wsStar :: RE.lit '=' :: RE.wsStar :: RE.lit '"' :: verTail)
      (' ' :: '=' :: ' ' :: '"' :: (v ++ '"' :: tail))
      = some (1 + (1 + (v.length + 2) + 1)) := by
    have := @matchFrom_wsStar_exact [' ']
      (RE.lit '=' :: RE.wsStar :: RE.lit '"' :: verTail)
      ('=' :: ' ' :: '"' :: (v ++ '"' :: tail)) _ (by decide)
      (countLeading_head_false (by decide)) t3
    simpa using this
  rw [heq, hpat, matchFrom_lits_prefix]
  have hps : ([RE.wsStar, RE.lit '=', RE.wsStar, RE.lit '"'] ++ verTail)
      = RE.wsStar :: RE.lit '=' :: RE.wsStar :: RE.lit '"' :: verTail := rfl
  rw [hps, t4]
  simp only [Option.map_some', Option.some.injEq]
  rw [cargoTmpl]
  have h7 : cargoPre.length = 7 := by decide
  simp only [List.length_append, List.length_cons, List.length_nil, h7]
  omega

/-! ## The replacement strings are in their patterns' languages -/

theorem Gen_verTail {v : List Char} (hv : VersionShape v) :
    Gen verTail (v ++ ['"']) := by
  obtain ⟨d1, d2, d3, h1, h2, h3, a1, a2, a3, rfl⟩ := hv
  have g0 : Gen [RE.lit '"'] ['"'] := Gen.lit Gen.nil
  have g1 : Gen [RE.digitPlus, RE.lit '"'] (d3 ++ ['"']) :=
    Gen.digitPlus h3 a3 g0
  have g2 : Gen [RE.lit '.', RE.digitPlus, RE.lit '"']
      ('.' :: (d3 ++ ['"'])) := Gen.lit g1
  have g3 : Gen [RE.digitPlus, RE.lit '.', RE.digitPlus, RE.lit '"']
      (d2 ++ '.' :: (d3 ++ ['"'])) := Gen.digitPlus h2 a2 g2
  have g4 : Gen [RE.lit '.', RE.digitPlus, RE.lit '.', RE.digitPlus,
      RE.lit '"'] ('.' :: (d2 ++ '.' :: (d3 ++ ['"']))) := Gen.lit g3
  have g5 : Gen verTail (d1 ++ '.' :: (d2 ++ '.' :: (d3 ++ ['"']))) :=
    Gen.digitPlus h1 a1 g4
  have heq : (d1 ++ '.' :: d2 ++ '.' :: d3) ++ ['"']
      = d1 ++ '.' :: (d2 ++ '.' :: (d3 ++ ['"'])) := by simp
  rw [heq]
  exact g5

theorem Gen_litsVer {M v : List Char} (hv : VersionShape v) :
    Gen (lits M ++ verTail) (M ++ v ++ ['"']) := by
  have h := Gen.genAppend (Gen_lits M) (Gen_verTail hv)
  rw [List.append_assoc]
  exact h

theorem Gen_cargoTmpl {v : List Char} (hv : VersionShape v) :
    Gen cargoPat (cargoTmpl v) := by
  have hsplit : "version = \"".data = cargoPre ++ [' ', '=', ' ', '"'] := by
    decide
  have heq : cargoTmpl v
      = cargoPre ++ (' ' :: '=' :: ' ' :: '"' :: (v ++ ['"'])) := by
    rw [cargoTmpl, hsplit]
    simp
  have hpat : cargoPat = lits cargoPre ++
      ([RE.wsStar, RE.lit '=', RE.wsStar, RE.lit '"'] ++ verTail) := by
    rw [cargoPat, List.append_assoc]
  have g0 : Gen (RE.lit '"' :: verTail) ('"' :: (v ++ ['"'])) :=
    Gen.lit (Gen_verTail hv)
  have g1 : Gen (RE.wsStar :: RE.lit '"' :: verTail)
      (' ' :: '"' :: (v ++ ['"'])) := by
    have := Gen.wsStar (d := [' ']) (by decide) g0
    simpa using this
  have g2 : Gen (RE.lit '=' :: RE.wsStar :: RE.lit '"' :: verTail)
      ('=' :: ' ' :: '"' :: (v ++ ['"'])) := Gen.lit g1
  have g3 : Gen (RE.wsStar :: RE.lit '=' :: RE.wsStar :: RE.lit '"' :: verTail)
      (' ' :: '=' :: ' ' :: '"' :: (v ++ ['"'])) := by
    have := Gen.wsStar (d := [' ']) (by decide) g2
    simpa using this
  rw [heq, hpat]
  exact Gen.genAppend (Gen_lits cargoPre) g3

/-! ## Shapes of pattern languages -/

theorem verTail_chars : ∀ e ∈ verTail, reCharsOK verChar e := by
  intro e he
  simp only [verTail, List.mem_cons, List.not_mem_nil, or_false] at he
  rcases he with rfl | rfl | rfl | rfl | rfl | rfl
  · intro c hc
    simp [verChar, hc]
  · simp only [reCharsOK]
    decide
  · intro c hc
    simp [verChar, hc]
  · simp only [reCharsOK]
    decide
  · intro c hc
    simp [verChar, hc]
  · simp only [reCharsOK]
    decide

theorem shape_litsVer {M : List Char} :
    ∀ w, Gen (lits M ++ verTail) w →
      ∃ v, w = M ++ v ∧ v.all verChar = true := by
  intro w h
  obtain ⟨w1, w2, rfl, hg1, hg2⟩ := Gen_append_inv h
  refine ⟨w2, ?_, Gen_chars verTail_chars hg2⟩
  rw [Gen_lits_inv hg1]

theorem cargoMid_chars :
    ∀ e ∈ [RE.wsStar, RE.lit '=', RE.wsStar, RE.lit '"'] ++ verTail,
      reCharsOK cargoTailChar e := by
  intro e he
  simp only [List.mem_append, List.mem_cons, List.not_mem_nil, or_false,
    verTail] at he
  rcases he with (rfl | rfl | rfl | rfl) | rfl | rfl | rfl | rfl | rfl | rfl
  · intro c hc
    simp [cargoTailChar, hc]
  · simp only [reCharsOK]
    decide
  · intro c hc
    simp [cargoTailChar, hc]
  · simp only [reCharsOK]
    decide
  · intro c hc
    simp [cargoTailChar, hc]
  · simp only [reCharsOK]
    decide
  · intro c hc
    simp [cargoTailChar, hc]
  · simp only [reCharsOK]
    decide
  · intro c hc
    simp [cargoTailChar, hc]
  · simp only [reCharsOK]
    decide

theorem shape_cargo :
    ∀ w, Gen cargoPat w →
      ∃ v, w = cargoPre ++ v ∧ v.all cargoTailChar = true := by
  intro w h
  have hpat : cargoPat = lits cargoPre ++
      ([RE.wsStar, RE.lit '=', RE.wsStar, RE.lit '"'] ++ verTail) := by
    rw [cargoPat, List.append_assoc]
  rw [hpat] at h
  obtain ⟨w1, w2, rfl, hg1, hg2⟩ := Gen_append_inv h
  refine ⟨w2, ?_, Gen_chars cargoMid_chars hg2⟩
  rw [Gen_lits_inv hg1]

theorem Gen_last_quote {M : List Char} :
    ∀ w, Gen (lits M ++ verTail) w → w.getLast? = some '"' := by
  intro w h
  have hsplit : lits M ++ verTail
      = (lits M ++ [RE.digitPlus, RE.lit '.', RE.digitPlus, RE.lit '.',
         RE.digitPlus]) ++ lits ['"'] := by
    rw [List.append_assoc]
    rfl
  rw [hsplit] at h
  obtain ⟨w1, w2, rfl, _, hg2⟩ := Gen_append_inv h
  rw [Gen_lits_inv hg2]
  exact List.getLast?_concat w1

/-! ## Opacity of replacement blocks for the other pattern -/

theorem matchFrom_lits_mismatch :
    ∀ {M : List Char} {ps : List RE} {y : List Char},
      (∃ i, i < M.length ∧ i < y.length ∧ y.getD i ' ' ≠ M.getD i ' ') →
      ∀ s, matchFrom (lits M ++ ps) (y ++ s) = none := by
  intro M
  induction M with
  | nil =>
    intro ps y h s
    obtain ⟨i, hi, _, _⟩ := h
    simp at hi
  | cons x M ih =>
    intro ps y h s
    obtain ⟨i, hiM, hiy, hne⟩ := h
    cases y with
    | nil => simp at hiy
    | cons c y2 =>
      have hl : lits (x :: M) ++ ps = .lit x :: (lits M ++ ps) := rfl
      rw [hl, List.cons_append, matchFrom]
      by_cases hcx : c = x
      · rw [if_pos hcx]
        cases i with
        | zero =>
          exfalso
          apply hne
          rw [List.getD_cons_zero, List.getD_cons_zero, hcx]
        | succ i =>
          rw [ih ⟨i, by simpa using hiM, by simpa using hiy, by
            simpa only [List.getD_cons_succ] using hne⟩ s]
          rfl
      · rw [if_neg hcx]

theorem opacity_of_mismatchAll {M : List Char} {ps : List RE} {A : List Char}
    (h : (List.range A.length).all (fun j =>
      (List.range M.length).any (fun i =>
        decide (i < (A.drop j).length) &&
        decide ((A.drop j).getD i ' ' ≠ M.getD i ' '))) = true) :
    ∀ j, j < A.length → ∀ s,
      matchFrom (lits M ++ ps) (List.drop j A ++ s) = none := by
  intro j hj s
  have hj2 := List.all_eq_true.mp h j (List.mem_range.mpr hj)
  rw [List.any_eq_true] at hj2
  obtain ⟨i, hi, hcond⟩ := hj2
  rw [Bool.and_eq_true, decide_eq_true_eq, decide_eq_true_eq] at hcond
  exact matchFrom_lits_mismatch
    ⟨i, List.mem_range.mp hi, hcond.1, hcond.2⟩ s

theorem VersionShape_all_verChar {v : List Char} (hv : VersionShape v) :
    v.all verChar = true := by
  obtain ⟨d1, d2, d3, _, _, _, a1, a2, a3, rfl⟩ := hv
  rw [List.all_eq_true]
  intro c hc
  have hdig : ∀ {d : List Char}, d.all isPyDigit = true → c ∈ d →
      verChar c = true := by
    intro d hall hm
    simp [verChar, List.all_eq_true.mp hall c hm]
  simp only [List.append_assoc, List.mem_append, List.mem_cons] at hc
  have hdot : verChar '.' = true := by decide
  rcases hc with h | h
  · exact hdig a1 h
  · rcases h with h | h
    · rcases h with rfl | h
      · exact hdot
      · exact hdig a2 h
    · rcases h with rfl | h
      · exact hdot
      · exact hdig a3 h

theorem not_mem_of_all_false {C : Char → Bool} {l : List Char} {c : Char}
    (hall : l.all C = true) (hc : C c = false) : c ∉ l := by
  intro hmem
  have := List.all_eq_true.mp hall c hmem
  rw [this] at hc
  exact absurd hc (by simp)

theorem tmpl_opacity {Mtm Mp : List Char} {w : List Char}
    (hbulk : ∀ j, j < Mtm.length → ∀ s,
      matchFrom (lits Mp ++ verTail) (List.drop j Mtm ++ s) = none)
    (hw : w.all verChar = true)
    (hPheadVer : verChar (Mp.headD ' ') = false)
    (hMpne : Mp ≠ []) :
    ∀ j, j < (Mtm ++ w).length → ∀ s,
      matchFrom (lits Mp ++ verTail) (List.drop j (Mtm ++ w) ++ s) = none := by
  intro j hj s
  rw [List.length_append] at hj
  by_cases hjM : j < Mtm.length
  · have hd : List.drop j (Mtm ++ w) = List.drop j Mtm ++ w := by
      rw [List.drop_append_eq_append_drop]
      have hz : j - Mtm.length = 0 := by omega
      rw [hz, List.drop_zero]
    rw [hd, List.append_assoc]
    exact hbulk j hjM (w ++ s)
  · have hd : List.drop j (Mtm ++ w) = List.drop (j - Mtm.length) w := by
      rw [List.drop_append_eq_append_drop,
        List.drop_eq_nil_of_le (by omega), List.nil_append]
    rw [hd]
    have hjw : j - Mtm.length < w.length := by omega
    refine matchFrom_lits_mismatch ⟨0, ?_, ?_, ?_⟩ s
    · cases Mp with
      | nil => exact absurd rfl hMpne
      | cons _ _ => simp
    · rw [List.length_drop]
      omega
    · rw [getD_drop (by omega)]
      intro hcon
      have hvc : verChar (w.getD (j - Mtm.length + 0) ' ') = true :=
        getD_of_all hw (by omega)
      rw [hcon] at hvc
      have hh : Mp.getD 0 ' ' = Mp.headD ' ' := by
        cases Mp <;> rfl
      rw [hh] at hvc
      rw [hvc] at hPheadVer
      exact absurd hPheadVer (by simp)

/-! ## Idempotence packages for the concrete rules -/

theorem VersionShape_no_backslash {v : List Char} (hv : VersionShape v) :
    '\\' ∉ v :=
  not_mem_of_all_false (VersionShape_all_verChar hv) (by decide)

theorem litsVer_tmpl_no_backslash {M : List Char} (hM : '\\' ∉ M)
    {v : List Char} (hv : VersionShape v) : '\\' ∉ M ++ v ++ ['"'] := by
  intro h
  simp only [List.mem_append, List.mem_singleton] at h
  rcases h with (h | h) | h
  · exact hM h
  · exact VersionShape_no_backslash hv h
  · exact absurd h (by decide)

theorem verBlock_all_verChar {v : List Char} (hv : VersionShape v) :
    (v ++ ['"']).all verChar = true := by
  rw [List.all_append, VersionShape_all_verChar hv]
  decide

theorem Amatch_label {v : List Char} (hv : VersionShape v) (tail : List Char) :
    matchFrom labelPat (labelTmpl v ++ tail) = some (labelTmpl v).length :=
  Amatch_litsVer hv tail

theorem Amatch_oapiSh {v : List Char} (hv : VersionShape v) (tail : List Char) :
    matchFrom oapiShPat (oapiShTmpl v ++ tail) = some (oapiShTmpl v).length :=
  Amatch_litsVer hv tail

theorem Amatch_specSh {v : List Char} (hv : VersionShape v) (tail : List Char) :
    matchFrom specShPat (specShTmpl v ++ tail) = some (specShTmpl v).length :=
  Amatch_litsVer hv tail

theorem labelTmpl_ne_nil (v : List Char) : labelTmpl v ≠ [] := by
  intro h
  have := congrArg List.length h
  simp [labelTmpl] at this

theorem cargoTmpl_ne_nil (v : List Char) : cargoTmpl v ≠ [] := by
  intro h
  have := congrArg List.length h
  simp [cargoTmpl] at this

theorem oapiShTmpl_ne_nil (v : List Char) : oapiShTmpl v ≠ [] := by
  intro h
  have := congrArg List.length h
  simp [oapiShTmpl] at this

theorem specShTmpl_ne_nil (v : List Char) : specShTmpl v ≠ [] := by
  intro h
  have := congrArg List.length h
  simp [specShTmpl] at this

theorem Stable_label {v : List Char} (hv : VersionShape v) (t : List Char) :
    Stable labelPat (labelTmpl v) (subAux labelPat (labelTmpl v) t) :=
  Stable_of_subAux (by decide) shape_litsVer (Gen_litsVer hv) (by decide) t

theorem subAux_idem_label {v : List Char} (hv : VersionShape v)
    (t : List Char) :
    subAux labelPat (labelTmpl v) (subAux labelPat (labelTmpl v) t)
      = subAux labelPat (labelTmpl v) t :=
  Stable_subAux_id (by decide) (Amatch_label hv) (labelTmpl_ne_nil v) _
    (Stable_label hv t)

theorem Stable_cargo {v : List Char} (hv : VersionShape v) (t : List Char) :
    Stable cargoPat (cargoTmpl v) (subAux cargoPat (cargoTmpl v) t) :=
  Stable_of_subAux (by decide) shape_cargo (Gen_cargoTmpl hv) (by decide) t

theorem subAux_idem_cargo {v : List Char} (hv : VersionShape v)
    (t : List Char) :
    subAux cargoPat (cargoTmpl v) (subAux cargoPat (cargoTmpl v) t)
      = subAux cargoPat (cargoTmpl v) t :=
  Stable_subAux_id (by decide) (Amatch_cargo hv) (cargoTmpl_ne_nil v) _
    (Stable_cargo hv t)

theorem hop_oapiTmpl_vs_spec {g : List Char} (hg : VersionShape g) :
    ∀ j, j < (oapiShTmpl g).length → ∀ s,
      matchFrom specShPat (List.drop j (oapiShTmpl g) ++ s) = none := by
  have heq : oapiShTmpl g = oapiPre ++ (g ++ ['"']) := by
    rw [oapiShTmpl, List.append_assoc]
  rw [heq]
  exact tmpl_opacity
    (opacity_of_mismatchAll (by decide))
    (verBlock_all_verChar hg) (by decide) (by decide)

theorem hop_specTmpl_vs_oapi {s : List Char} (hs : VersionShape s) :
    ∀ j, j < (specShTmpl s).length → ∀ t,
      matchFrom oapiShPat (List.drop j (specShTmpl s) ++ t) = none := by
  have heq : specShTmpl s = specPre ++ (s ++ ['"']) := by
    rw [specShTmpl, List.append_assoc]
  rw [heq]
  exact tmpl_opacity
    (opacity_of_mismatchAll (by decide))
    (verBlock_all_verChar hs) (by decide) (by decide)

theorem oapiPre_quote_unique :
    ∀ j, j + 1 < oapiPre.length → oapiPre.getD j ' ' ≠ '"' := by
  have h : ∀ j, j < oapiPre.length - 1 → oapiPre.getD j ' ' ≠ '"' := by
    decide
  intro j hj
  exact h j (by omega)

/-- Stability of the generator-version rule's fixpoints survives the
spec-path substitution on `oapigen.sh`. -/
theorem Stable_oapi_preserved {g s : List Char} (hg : VersionShape g)
    (hs : VersionShape s) :
    ∀ w, Stable oapiShPat (oapiShTmpl g) w →
      Stable oapiShPat (oapiShTmpl g) (subAux specShPat (specShTmpl s) w) :=
  Stable_preserved (by decide) (by decide)
    shape_litsVer shape_litsVer Gen_last_quote (Gen_litsVer hs)
    ⟨g ++ ['"'], by rw [oapiShTmpl, List.append_assoc]⟩
    oapiPre_quote_unique
    (by decide) (by decide) (by decide)
    (hop_oapiTmpl_vs_spec hg) (hop_specTmpl_vs_oapi hs)
    (oapiShTmpl_ne_nil g)

/-- After one full pass over `oapigen.sh` (generator rule then spec rule),
the generator rule finds nothing new to change. -/
theorem subAux_sh_first_idem {g s : List Char} (hg : VersionShape g)
    (hs : VersionShape s) (t : List Char) :
    subAux oapiShPat (oapiShTmpl g)
        (subAux specShPat (specShTmpl s) (subAux oapiShPat (oapiShTmpl g) t))
      = subAux specShPat (specShTmpl s) (subAux oapiShPat (oapiShTmpl g) t) :=
  Stable_subAux_id (by decide) (Amatch_oapiSh hg) (oapiShTmpl_ne_nil g) _
    (Stable_oapi_preserved hg hs _
      (Stable_of_subAux (by decide) shape_litsVer (Gen_litsVer hg)
        (by decide) t))

/-- After one full pass over `oapigen.sh`, the spec-path rule finds nothing
new to change either. -/
theorem subAux_sh_second_idem {g s : List Char} (hg : VersionShape g)
    (hs : VersionShape s) (t : List Char) :
    subAux specShPat (specShTmpl s)
        (subAux specShPat (specShTmpl s) (subAux oapiShPat (oapiShTmpl g) t))
      = subAux specShPat (specShTmpl s) (subAux oapiShPat (oapiShTmpl g) t) :=
  Stable_subAux_id (by decide) (Amatch_specSh hs) (specShTmpl_ne_nil s) _
    (Stable_of_subAux (by decide) shape_litsVer (Gen_litsVer hs) (by decide)
      (subAux oapiShPat (oapiShTmpl g) t))

/-! ## File-system and replace-call lemmas -/

theorem fsRead_fsWrite_self (fs : FS) (path : String) (c : List Char) :
    fsRead (fsWrite fs path c) path = some c := by
  induction fs with
  | nil => simp [fsWrite, fsRead]
  | cons e rest ih =>
    obtain ⟨q, d⟩ := e
    by_cases hq : q = path
    · simp [fsWrite, fsRead, hq]
    · simp [fsWrite, fsRead, hq, ih]

theorem fsRead_fsWrite_other {q path : String} (h : q ≠ path) (fs : FS)
    (c : List Char) : fsRead (fsWrite fs path c) q = fsRead fs q := by
  induction fs with
  | nil =>
    simp [fsWrite, fsRead]
    intro hcon
    exact absurd hcon.symm h
  | cons e rest ih =>
    obtain ⟨q2, d⟩ := e
    by_cases hq : q2 = path
    · subst hq
      simp only [fsWrite, if_pos rfl, fsRead]
      rw [if_neg (fun hc => h hc.symm), if_neg (fun hc => h hc.symm)]
    · simp only [fsWrite, if_neg hq, fsRead]
      by_cases hq2 : q2 = q
      · rw [if_pos hq2, if_pos hq2]
      · rw [if_neg hq2, if_neg hq2, ih]

theorem replace_ok_full {fs : FS} {path : String} {p : List RE}
    {tmpl text r : List Char}
    (hread : fsRead fs path = some text) (htm : parseTemplate tmpl = some r) :
    ∃ fs2 tr, replace fs path p tmpl = .ok (fs2, tr) ∧
      fsRead fs2 path = some (subAux p r text) ∧
      (∀ q, q ≠ path → fsRead fs2 q = fsRead fs q) ∧
      replaceEvents path tr ∧
      (subAux p r text = text → fs2 = fs ∧
        tr = [.print (noChangesLine path)]) := by
  by_cases heq : text = subAux p r text
  · refine ⟨fs, [.print (noChangesLine path)], ?_, ?_, ?_, ?_, ?_⟩
    · unfold replace
      rw [hread, htm]
      simp [← heq]
    · rw [← heq]
      exact hread
    · intro q _
      rfl
    · right
      rfl
    · intro _
      exact ⟨rfl, rfl⟩
  · refine ⟨fsWrite fs path (subAux p r text),
      [.write path (subAux p r text), .print (updatedLine path)],
      ?_, ?_, ?_, ?_, ?_⟩
    · unfold replace
      rw [hread, htm]
      simp only []
      rw [if_neg heq]
    · exact fsRead_fsWrite_self fs path (subAux p r text)
    · intro q hq
      exact fsRead_fsWrite_other hq fs (subAux p r text)
    · exact Or.inl ⟨subAux p r text, rfl⟩
    · intro hcon
      exact absurd hcon.symm heq

theorem replace_ok_events {fs : FS} {path : String} {p : List RE}
    {tmpl : List Char} {fs2 : FS} {tr : List Event}
    (h : replace fs path p tmpl = .ok (fs2, tr)) : replaceEvents path tr := by
  rcases hr : fsRead fs path with _ | text
  · unfold replace at h
    rw [hr] at h
    simp at h
  · rcases ht : parseTemplate tmpl with _ | r
    · unfold replace at h
      rw [hr, ht] at h
      simp at h
    · obtain ⟨fs3, tr3, heq3, _, _, hev, _⟩ := replace_ok_full hr ht
      have hh := heq3.symm.trans h
      rw [Except.ok.injEq, Prod.mk.injEq] at hh
      rw [← hh.2]
      exact hev

theorem printsOf_append (t1 t2 : List Event) :
    printsOf (t1 ++ t2) = printsOf t1 ++ printsOf t2 :=
  List.filterMap_append ..

theorem replaceEvents_prints {path : String} {tr : List Event}
    (h : replaceEvents path tr) :
    printsOf tr = [updatedLine path] ∨ printsOf tr = [noChangesLine path] := by
  rcases h with ⟨c, rfl⟩ | rfl
  · left
    rfl
  · right
    rfl

theorem replaceEvents_prints_length {path : String} {tr : List Event}
    (h : replaceEvents path tr) : (printsOf tr).length = 1 := by
  rcases replaceEvents_prints h with h2 | h2 <;> rw [h2] <;> rfl

/-! ## Structure of a successful run -/

theorem run_err_none_trace (parse : List Char → Option TVal) (fs0 : FS)
    (h : (run parse fs0).err = none) :
    ∃ t1 t2 t3 t4 t5 t6 t7 : List Event,
      (run parse fs0).trace = t1 ++ t2 ++ t3 ++ t4 ++ t5 ++ t6 ++ t7 ∧
      replaceEvents "Dockerfile.deploy" t1 ∧
      replaceEvents "Dockerfile" t2 ∧
      replaceEvents "Cargo.toml" t3 ∧
      replaceEvents "oapigen.ps1" t4 ∧
      replaceEvents "oapigen.ps1" t5 ∧
      replaceEvents "oapigen.sh" t6 ∧
      replaceEvents "oapigen.sh" t7 := by
  unfold run at h ⊢
  rcases h0 : fsRead fs0 "variables.toml" with _ | ct
  · simp only [h0] at h
    exact absurd h (by simp)
  simp only [h0] at h ⊢
  rcases h1 : parse ct with _ | cfg
  · simp only [h1] at h
    exact absurd h (by simp)
  simp only [h1] at h ⊢
  rcases h2 : tomlIndex cfg "version" with e | vtab
  · simp only [h2] at h
    exact absurd h (by simp)
  simp only [h2] at h ⊢
  rcases h3 : tomlIndex vtab "version" with e | vval
  · simp only [h3] at h
    exact absurd h (by simp)
  simp only [h3] at h ⊢
  rcases h4 : replace fs0 "Dockerfile.deploy" labelPat
      (labelTmpl (pyFormat vval)) with e | ⟨fs1, t1⟩
  · simp only [h4] at h
    exact absurd h (by simp)
  simp only [h4] at h ⊢
  rcases h5 : replace fs1 "Dockerfile" labelPat
      (labelTmpl (pyFormat vval)) with e | ⟨fs2, t2⟩
  · simp only [h5] at h
    exact absurd h (by simp)
  simp only [h5] at h ⊢
  rcases h6 : replace fs2 "Cargo.toml" cargoPat
      (cargoTmpl (pyFormat vval)) with e | ⟨fs3, t3⟩
  · simp only [h6] at h
    exact absurd h (by simp)
  simp only [h6] at h ⊢
  rcases h7 : tomlIndex cfg "openapi" with e | oapid
  · simp only [h7] at h
    exact absurd h (by simp)
  simp only [h7] at h ⊢
  rcases h8 : tomlIndex oapid "oapigen-version" with e | gv4
  · simp only [h8] at h
    exact absurd h (by simp)
  simp only [h8] at h ⊢
  rcases h9 : replace fs3 "oapigen.ps1" oapiPs1Pat
      (oapiPs1Tmpl (pyFormat gv4)) with e | ⟨fs4, t4⟩
  · simp only [h9] at h
    exact absurd h (by simp)
  simp only [h9] at h ⊢
  rcases h10 : tomlIndex oapid "oapi-spec" with e | sv5
  · simp only [h10] at h
    exact absurd h (by simp)
  simp only [h10] at h ⊢
  rcases h11 : replace fs4 "oapigen.ps1" specPs1Pat
      (specPs1Tmpl (pyFormat sv5)) with e | ⟨fs5, t5⟩
  · simp only [h11] at h
    exact absurd h (by simp)
  simp only [h11] at h ⊢
  rcases h13 : replace fs5 "oapigen.sh" oapiShPat
      (oapiShTmpl (pyFormat gv4)) with e | ⟨fs6, t6⟩
  · simp only [h13] at h
    exact absurd h (by simp)
  simp only [h13] at h ⊢
  rcases h15 : replace fs6 "oapigen.sh" specShPat
      (specShTmpl (pyFormat sv5)) with e | ⟨fs7, t7⟩
  · simp only [h15] at h
    exact absurd h (by simp)
  simp only [h15] at h ⊢
  exact ⟨t1, t2, t3, t4, t5, t6, t7, rfl,
    replace_ok_events h4, replace_ok_events h5, replace_ok_events h6,
    replace_ok_events h9, replace_ok_events h11, replace_ok_events h13,
    replace_ok_events h15⟩

/-! ## A run on a well-formed string configuration -/

theorem run_str_ok {parse : List Char → Option TVal} {fs0 : FS}
    {vS gS sS : String} {ct c1 c2 c3 c4 c5 : List Char}
    (hparse : parse ct = some (mkCfg (.str vS) (.str gS) (.str sS)))
    (hv : VersionShape vS.data) (hg : VersionShape gS.data)
    (hs : VersionShape sS.data)
    (hr0 : fsRead fs0 "variables.toml" = some ct)
    (hc1 : fsRead fs0 "Dockerfile.deploy" = some c1)
    (hc2 : fsRead fs0 "Dockerfile" = some c2)
    (hc3 : fsRead fs0 "Cargo.toml" = some c3)
    (hc4 : fsRead fs0 "oapigen.ps1" = some c4)
    (hc5 : fsRead fs0 "oapigen.sh" = some c5) :
    (run parse fs0).err = none ∧
    fsRead (run parse fs0).fs "variables.toml" = some ct ∧
    fsRead (run parse fs0).fs "Dockerfile.deploy"
      = some (subAux labelPat (labelTmpl vS.data) c1) ∧
    fsRead (run parse fs0).fs "Dockerfile"
      = some (subAux labelPat (labelTmpl vS.data) c2) ∧
    fsRead (run parse fs0).fs "Cargo.toml"
      = some (subAux cargoPat (cargoTmpl vS.data) c3) ∧
    fsRead (run parse fs0).fs "oapigen.ps1" = some c4 ∧
    fsRead (run parse fs0).fs "oapigen.sh"
      = some (subAux specShPat (specShTmpl sS.data)
          (subAux oapiShPat (oapiShTmpl gS.data) c5)) ∧
    ((subAux labelPat (labelTmpl vS.data) c1 = c1 ∧
      subAux labelPat (labelTmpl vS.data) c2 = c2 ∧
      subAux cargoPat (cargoTmpl vS.data) c3 = c3 ∧
      subAux oapiShPat (oapiShTmpl gS.data) c5 = c5 ∧
      subAux specShPat (specShTmpl sS.data) c5 = c5) →
      (run parse fs0).fs = fs0 ∧
      printsOf (run parse fs0).trace =
        [noChangesLine "Dockerfile.deploy", noChangesLine "Dockerfile",
         noChangesLine "Cargo.toml", noChangesLine "oapigen.ps1",
         noChangesLine "oapigen.ps1", noChangesLine "oapigen.sh",
         noChangesLine "oapigen.sh"] ∧
      (run parse fs0).trace.filter isWriteEvent = []) := by
  have hpfv : pyFormat (TVal.str vS) = vS.data := rfl
  have hpfg : pyFormat (TVal.str gS) = gS.data := rfl
  have hpfs : pyFormat (TVal.str sS) = sS.data := rfl
  have l1 : tomlIndex (mkCfg (.str vS) (.str gS) (.str sS)) "version"
      = .ok (.table [("version", .str vS)]) := rfl
  have l2 : tomlIndex (TVal.table [("version", .str vS)]) "version"
      = .ok (.str vS) := rfl
  have l3 : tomlIndex (mkCfg (.str vS) (.str gS) (.str sS)) "openapi"
      = .ok (.table [("oapigen-version", .str gS), ("oapi-spec", .str sS)])
      := rfl
  have l4 : tomlIndex
      (TVal.table [("oapigen-version", .str gS), ("oapi-spec", .str sS)])
      "oapigen-version" = .ok (.str gS) := rfl
  have l5 : tomlIndex
      (TVal.table [("oapigen-version", .str gS), ("oapi-spec", .str sS)])
      "oapi-spec" = .ok (.str sS) := rfl
  have htm1 : parseTemplate (labelTmpl vS.data) = some (labelTmpl vS.data) :=
    parseTemplate_no_backslash _ (litsVer_tmpl_no_backslash (by decide) hv)
  have htm3 : parseTemplate (cargoTmpl vS.data) = some (cargoTmpl vS.data) :=
    parseTemplate_no_backslash _ (litsVer_tmpl_no_backslash (by decide) hv)
  have htm4 : parseTemplate (oapiPs1Tmpl gS.data)
      = some (oapiPs1Tmpl gS.data) :=
    parseTemplate_no_backslash _ (litsVer_tmpl_no_backslash (by decide) hg)
  have htm5 : parseTemplate (specPs1Tmpl sS.data)
      = some (specPs1Tmpl sS.data) :=
    parseTemplate_no_backslash _ (litsVer_tmpl_no_backslash (by decide) hs)
  have htm6 : parseTemplate (oapiShTmpl gS.data)
      = some (oapiShTmpl gS.data) :=
    parseTemplate_no_backslash _ (litsVer_tmpl_no_backslash (by decide) hg)
  have htm7 : parseTemplate (specShTmpl sS.data)
      = some (specShTmpl sS.data) :=
    parseTemplate_no_backslash _ (litsVer_tmpl_no_backslash (by decide) hs)
  obtain ⟨fs1, t1, e1, rd1, o1, ev1, nc1⟩ :=
    replace_ok_full (p := labelPat) hc1 htm1
  have hc2a : fsRead fs1 "Dockerfile" = some c2 := by
    rw [o1 _ (by decide)]; exact hc2
  obtain ⟨fs2, t2, e2, rd2, o2, ev2, nc2⟩ :=
    replace_ok_full (p := labelPat) hc2a htm1
  have hc3a : fsRead fs2 "Cargo.toml" = some c3 := by
    rw [o2 _ (by decide), o1 _ (by decide)]; exact hc3
  obtain ⟨fs3, t3, e3, rd3, o3, ev3, nc3⟩ :=
    replace_ok_full (p := cargoPat) hc3a htm3
  have hc4a : fsRead fs3 "oapigen.ps1" = some c4 := by
    rw [o3 _ (by decide), o2 _ (by decide), o1 _ (by decide)]; exact hc4
  obtain ⟨fs4, t4, e4, rd4, o4, ev4, nc4⟩ :=
    replace_ok_full (p := oapiPs1Pat) hc4a htm4
  have hid4 : subAux oapiPs1Pat (oapiPs1Tmpl gS.data) c4 = c4 :=
    subAux_id_of_never matchFrom_oapiPs1_none _ c4
  obtain ⟨hfs4, ht4⟩ := nc4 hid4
  have hc5a : fsRead fs4 "oapigen.ps1" = some c4 := by
    rw [hfs4]; exact hc4a
  obtain ⟨fs5, t5, e5, rd5, o5, ev5, nc5⟩ :=
    replace_ok_full (p := specPs1Pat) hc5a htm5
  have hid5 : subAux specPs1Pat (specPs1Tmpl sS.data) c4 = c4 :=
    subAux_id_of_never matchFrom_specPs1_none _ c4
  obtain ⟨hfs5, ht5⟩ := nc5 hid5
  have hc6a : fsRead fs5 "oapigen.sh" = some c5 := by
    rw [hfs5, hfs4, o3 _ (by decide), o2 _ (by decide), o1 _ (by decide)]
    exact hc5
  obtain ⟨fs6, t6, e6, rd6, o6, ev6, nc6⟩ :=
    replace_ok_full (p := oapiShPat) hc6a htm6
  have hc7a : fsRead fs6 "oapigen.sh"
      = some (subAux oapiShPat (oapiShTmpl gS.data) c5) := rd6
  obtain ⟨fs7, t7, e7, rd7, o7, ev7, nc7⟩ :=
    replace_ok_full (p := specShPat) hc7a htm7
  have hrun : run parse fs0 =
      ⟨fs7, t1 ++ t2 ++ t3 ++ t4 ++ t5 ++ t6 ++ t7, none⟩ := by
    unfold run
    simp only [hr0, hparse, l1, l2, l3, l4, l5, hpfv, hpfg, hpfs,
      e1, e2, e3, e4, e5, e6, e7]
  rw [hrun]
  refine ⟨rfl, ?_, ?_, ?_, ?_, ?_, ?_, ?_⟩
  · show fsRead fs7 "variables.toml" = some ct
    rw [o7 _ (by decide), o6 _ (by decide), hfs5, hfs4, o3 _ (by decide),
      o2 _ (by decide), o1 _ (by decide)]
    exact hr0
  · show fsRead fs7 "Dockerfile.deploy" = _
    rw [o7 _ (by decide), o6 _ (by decide), hfs5, hfs4, o3 _ (by decide),
      o2 _ (by decide)]
    exact rd1
  · show fsRead fs7 "Dockerfile" = _
    rw [o7 _ (by decide), o6 _ (by decide), hfs5, hfs4, o3 _ (by decide)]
    exact rd2
  · show fsRead fs7 "Cargo.toml" = _
    rw [o7 _ (by decide), o6 _ (by decide), hfs5, hfs4]
    exact rd3
  · show fsRead fs7 "oapigen.ps1" = some c4
    rw [o7 _ (by decide), o6 _ (by decide), hfs5, hfs4]
    exact hc4a
  · show fsRead fs7 "oapigen.sh" = _
    exact rd7
  · rintro ⟨k1, k2, k3, k4, k5⟩
    obtain ⟨hfs1, ht1⟩ := nc1 k1
    obtain ⟨hfs2, ht2⟩ := nc2 k2
    obtain ⟨hfs3, ht3⟩ := nc3 k3
    obtain ⟨hfs6, ht6⟩ := nc6 k4
    have k5b : subAux specShPat (specShTmpl sS.data)
        (subAux oapiShPat (oapiShTmpl gS.data) c5)
        = subAux oapiShPat (oapiShTmpl gS.data) c5 := by
      rw [k4]
      exact k5
    obtain ⟨hfs7, ht7⟩ := nc7 k5b
    refine ⟨?_, ?_, ?_⟩
    · show fs7 = fs0
      rw [hfs7, hfs6, hfs5, hfs4, hfs3, hfs2, hfs1]
    · show printsOf (t1 ++ t2 ++ t3 ++ t4 ++ t5 ++ t6 ++ t7) = _
      rw [ht1, ht2, ht3, ht4, ht5, ht6, ht7]
      rfl
    · show (t1 ++ t2 ++ t3 ++ t4 ++ t5 ++ t6 ++ t7).filter isWriteEvent = []
      rw [ht1, ht2, ht3, ht4, ht5, ht6, ht7]
      rfl

/-! ## Commutation of substitution calls on distinct files -/

theorem replace_eq {fs : FS} {path : String} {p : List RE}
    {tmpl text r : List Char}
    (hread : fsRead fs path = some text) (htm : parseTemplate tmpl = some r) :
    replace fs path p tmpl =
      if subAux p r text = text then .ok (fs, [.print (noChangesLine path)])
      else .ok (fsWrite fs path (subAux p r text),
        [.write path (subAux p r text), .print (updatedLine path)]) := by
  unfold replace
  rw [hread, htm]
  by_cases h : subAux p r text = text
  · rw [if_pos h]
    simp only []
    rw [if_pos h.symm]
  · rw [if_neg h]
    simp only []
    rw [if_neg (fun e => h e.symm)]

theorem fsWrite_comm {p q : String} (h : p ≠ q) :
    ∀ (fs : FS) (c d : List Char), (fsRead fs p).isSome = true →
      fsWrite (fsWrite fs p c) q d = fsWrite (fsWrite fs q d) p c := by
  intro fs
  induction fs with
  | nil =>
    intro c d hp
    simp [fsRead] at hp
  | cons e rest ih =>
    intro c d hp
    obtain ⟨k, v⟩ := e
    by_cases hkp : k = p
    · subst hkp
      simp [fsWrite, h]
    · by_cases hkq : k = q
      · subst hkq
        have h2 : ¬ (k = p) := hkp
        simp [fsWrite, h2, fun e : k = p => hkp e]
      · simp only [fsRead] at hp
        rw [if_neg hkp] at hp
        simp [fsWrite, hkp, hkq, ih c d hp]

theorem fsWrite_pres {fs : FS} {q path : String} {c : List Char}
    (h : (fsRead fs q).isSome = true) :
    (fsRead (fsWrite fs path c) q).isSome = true := by
  by_cases hq : q = path
  · subst hq
    rw [fsRead_fsWrite_self]
    rfl
  · rw [fsRead_fsWrite_other hq]
    exact h

/-- Swapping two adjacent substitution calls whose target paths differ
changes neither the final file system nor the error outcome, and permutes
the event trace. -/
theorem applyRules_swap {a b : Rule} (hab : a.path ≠ b.path) :
    ∀ (xs : List Rule) (fs : FS) (ys : List Rule),
      (∀ rule ∈ xs ++ a :: b :: ys,
        (fsRead fs rule.path).isSome = true ∧
        (parseTemplate rule.tmpl).isSome = true) →
      (applyRules fs (xs ++ a :: b :: ys)).1
        = (applyRules fs (xs ++ b :: a :: ys)).1 ∧
      (applyRules fs (xs ++ a :: b :: ys)).2.1.Perm
        (applyRules fs (xs ++ b :: a :: ys)).2.1 ∧
      (applyRules fs (xs ++ a :: b :: ys)).2.2
        = (applyRules fs (xs ++ b :: a :: ys)).2.2 := by
  intro xs
  induction xs with
  | nil =>
    intro fs ys hpres
    have hparts := hpres a (by simp)
    have hpartsb := hpres b (by simp)
    obtain ⟨hta0, hpa0⟩ := hparts
    obtain ⟨htb0, hpb0⟩ := hpartsb
    rcases hta : fsRead fs a.path with _ | ta
    · rw [hta] at hta0
      exact absurd hta0 (by simp)
    rcases htb : fsRead fs b.path with _ | tb
    · rw [htb] at htb0
      exact absurd htb0 (by simp)
    rcases hpa : parseTemplate a.tmpl with _ | ra
    · rw [hpa] at hpa0
      exact absurd hpa0 (by simp)
    rcases hpb : parseTemplate b.tmpl with _ | rb
    · rw [hpb] at hpb0
      exact absurd hpb0 (by simp)
    have hba : b.path ≠ a.path := fun e => hab e.symm
    have htb2 : ∀ c, fsRead (fsWrite fs a.path c) b.path = some tb := by
      intro c
      rw [fsRead_fsWrite_other hba]
      exact htb
    have hta2 : ∀ c, fsRead (fsWrite fs b.path c) a.path = some ta := by
      intro c
      rw [fsRead_fsWrite_other hab]
      exact hta
    have ea := replace_eq hta hpa (p := a.pat)
    have eb := replace_eq htb hpb (p := b.pat)
    by_cases ha : subAux a.pat ra ta = ta <;>
      by_cases hb : subAux b.pat rb tb = tb
    · rw [if_pos ha] at ea
      rw [if_pos hb] at eb
      simp only [List.nil_append, applyRules, ea, eb]
      refine ⟨by trivial, ?_, by trivial⟩
      have h1 : [Event.print (noChangesLine a.path)] ++
          ([Event.print (noChangesLine b.path)] ++ (applyRules fs ys).2.1)
          = ([Event.print (noChangesLine a.path)] ++
             [Event.print (noChangesLine b.path)]) ++ (applyRules fs ys).2.1 := by
        rw [List.append_assoc]
      have h2 : [Event.print (noChangesLine b.path)] ++
          ([Event.print (noChangesLine a.path)] ++ (applyRules fs ys).2.1)
          = ([Event.print (noChangesLine b.path)] ++
             [Event.print (noChangesLine a.path)]) ++ (applyRules fs ys).2.1 := by
        rw [List.append_assoc]
      rw [h1, h2]
      exact (List.perm_append_comm).append_right _
    · rw [if_pos ha] at ea
      rw [if_neg hb] at eb
      have eb2 := replace_eq (htb2 (subAux a.pat ra ta)) hpb (p := b.pat)
      have ea2 := replace_eq (hta2 (subAux b.pat rb tb)) hpa (p := a.pat)
      rw [if_neg hb] at eb2
      rw [if_pos ha] at ea2
      simp only [List.nil_append, applyRules, ea, eb, eb2, ea2]
      refine ⟨by trivial, ?_, by trivial⟩
      rw [← List.append_assoc, ← List.append_assoc]
      exact (List.perm_append_comm).append_right _
    · rw [if_neg ha] at ea
      rw [if_pos hb] at eb
      have eb2 := replace_eq (htb2 (subAux a.pat ra ta)) hpb (p := b.pat)
      have ea2 := replace_eq (hta2 (subAux b.pat rb tb)) hpa (p := a.pat)
      rw [if_pos hb] at eb2
      rw [if_neg ha] at ea2
      simp only [List.nil_append, applyRules, ea, eb, eb2, ea2]
      refine ⟨by trivial, ?_, by trivial⟩
      rw [← List.append_assoc, ← List.append_assoc]
      exact (List.perm_append_comm).append_right _
    · rw [if_neg ha] at ea
      rw [if_neg hb] at eb
      have eb2 := replace_eq (htb2 (subAux a.pat ra ta)) hpb (p := b.pat)
      have ea2 := replace_eq (hta2 (subAux b.pat rb tb)) hpa (p := a.pat)
      rw [if_neg hb] at eb2
      rw [if_neg ha] at ea2
      have hcomm : fsWrite (fsWrite fs a.path (subAux a.pat ra ta)) b.path
            (subAux b.pat rb tb)
          = fsWrite (fsWrite fs b.path (subAux b.pat rb tb)) a.path
            (subAux a.pat ra ta) :=
        fsWrite_comm hab fs _ _ (by rw [hta]; rfl)
      simp only [List.nil_append, applyRules, ea, eb, eb2, ea2, hcomm]
      refine ⟨by trivial, ?_, by trivial⟩
      rw [← List.append_assoc, ← List.append_assoc]
      exact (List.perm_append_comm).append_right _
  | cons x xs ih =>
    intro fs ys hpres
    obtain ⟨htx0, hpx0⟩ := hpres x (by simp)
    rcases htx : fsRead fs x.path with _ | tx
    · rw [htx] at htx0
      exact absurd htx0 (by simp)
    rcases hpx : parseTemplate x.tmpl with _ | rx
    · rw [hpx] at hpx0
      exact absurd hpx0 (by simp)
    have ex := replace_eq htx hpx (p := x.pat)
    have step : ∀ fs2 : FS,
        (∀ rule ∈ xs ++ a :: b :: ys,
          (fsRead fs2 rule.path).isSome = true ∧
          (parseTemplate rule.tmpl).isSome = true) →
        (applyRules fs2 (xs ++ a :: b :: ys)).1
          = (applyRules fs2 (xs ++ b :: a :: ys)).1 ∧
        (applyRules fs2 (xs ++ a :: b :: ys)).2.1.Perm
          (applyRules fs2 (xs ++ b :: a :: ys)).2.1 ∧
        (applyRules fs2 (xs ++ a :: b :: ys)).2.2
          = (applyRules fs2 (xs ++ b :: a :: ys)).2.2 := fun fs2 h => ih fs2 ys h
    by_cases hx : subAux x.pat rx tx = tx
    · rw [if_pos hx] at ex
      simp only [List.cons_append, applyRules, ex]
      have hpres2 : ∀ rule ∈ xs ++ a :: b :: ys,
          (fsRead fs rule.path).isSome = true ∧
          (parseTemplate rule.tmpl).isSome = true := by
        intro rule hr
        exact hpres rule (by simp [hr])
      obtain ⟨h1, h2, h3⟩ := step fs hpres2
      exact ⟨h1, h2.cons _, h3⟩
    · rw [if_neg hx] at ex
      simp only [List.cons_append, applyRules, ex]
      have hpres2 : ∀ rule ∈ xs ++ a :: b :: ys,
          (fsRead (fsWrite fs x.path (subAux x.pat rx tx)) rule.path).isSome
            = true ∧
          (parseTemplate rule.tmpl).isSome = true := by
        intro rule hr
        obtain ⟨hh1, hh2⟩ := hpres rule (by simp [hr])
        exact ⟨fsWrite_pres hh1, hh2⟩
      obtain ⟨h1, h2, h3⟩ := step _ hpres2
      exact ⟨h1, (h2.cons _).cons _, h3⟩

/-- On a well-formed string configuration, the whole script is the
sequential application of its seven rules. -/
theorem run_eq_applyRules {parse : List Char → Option TVal} {fs0 : FS}
    {vS gS sS : String} {ct : List Char}
    (hparse : parse ct = some (mkCfg (.str vS) (.str gS) (.str sS)))
    (hr0 : fsRead fs0 "variables.toml" = some ct) :
    run parse fs0 = ⟨(applyRules fs0 (rules7 vS.data gS.data sS.data)).1,
      (applyRules fs0 (rules7 vS.data gS.data sS.data)).2.1,
      (applyRules fs0 (rules7 vS.data gS.data sS.data)).2.2⟩ := by
  have hpfv : pyFormat (TVal.str vS) = vS.data := rfl
  have hpfg : pyFormat (TVal.str gS) = gS.data := rfl
  have hpfs : pyFormat (TVal.str sS) = sS.data := rfl
  have l1 : tomlIndex (mkCfg (.str vS) (.str gS) (.str sS)) "version"
      = .ok (.table [("version", .str vS)]) := rfl
  have l2 : tomlIndex (TVal.table [("version", .str vS)]) "version"
      = .ok (.str vS) := rfl
  have l3 : tomlIndex (mkCfg (.str vS) (.str gS) (.str sS)) "openapi"
      = .ok (.table [("oapigen-version", .str gS), ("oapi-spec", .str sS)])
      := rfl
  have l4 : tomlIndex
      (TVal.table [("oapigen-version", .str gS), ("oapi-spec", .str sS)])
      "oapigen-version" = .ok (.str gS) := rfl
  have l5 : tomlIndex
      (TVal.table [("oapigen-version", .str gS), ("oapi-spec", .str sS)])
      "oapi-spec" = .ok (.str sS) := rfl
  unfold run
  simp only [hr0, hparse, l1, l2, l3, l4, l5, hpfv, hpfg, hpfs, rules7]
  rcases e1 : replace fs0 "Dockerfile.deploy" labelPat (labelTmpl vS.data)
      with er | ⟨fs1, t1⟩
  · simp [applyRules, e1]
  simp only [applyRules, e1]
  rcases e2 : replace fs1 "Dockerfile" labelPat (labelTmpl vS.data)
      with er | ⟨fs2, t2⟩
  · simp [applyRules, e2]
  simp only [applyRules, e2]
  rcases e3 : replace fs2 "Cargo.toml" cargoPat (cargoTmpl vS.data)
      with er | ⟨fs3, t3⟩
  · simp [applyRules, e3, List.append_assoc]
  simp only [applyRules, e3]
  rcases e4 : replace fs3 "oapigen.ps1" oapiPs1Pat (oapiPs1Tmpl gS.data)
      with er | ⟨fs4, t4⟩
  · simp [applyRules, e4, List.append_assoc]
  simp only [applyRules, e4]
  rcases e5 : replace fs4 "oapigen.ps1" specPs1Pat (specPs1Tmpl sS.data)
      with er | ⟨fs5, t5⟩
  · simp [applyRules, e5, List.append_assoc]
  simp only [applyRules, e5]
  rcases e6 : replace fs5 "oapigen.sh" oapiShPat (oapiShTmpl gS.data)
      with er | ⟨fs6, t6⟩
  · simp [applyRules, e6, List.append_assoc]
  simp only [applyRules, e6]
  rcases e7 : replace fs6 "oapigen.sh" specShPat (specShTmpl sS.data)
      with er | ⟨fs7, t7⟩
  · simp [applyRules, e7, List.append_assoc]
  simp [applyRules, e7, List.append_assoc]

/-! ## Remaining helpers for the claims -/

theorem run_err_none_lookups {parse : List Char → Option TVal} {fs0 : FS}
    (h : (run parse fs0).err = none) {ct : List Char} {cfg : TVal}
    (hct : fsRead fs0 "variables.toml" = some ct)
    (hcfg : parse ct = some cfg) :
    ∃ vtab vval oapid gv sv,
      tomlIndex cfg "version" = .ok vtab ∧
      tomlIndex vtab "version" = .ok vval ∧
      tomlIndex cfg "openapi" = .ok oapid ∧
      tomlIndex oapid "oapigen-version" = .ok gv ∧
      tomlIndex oapid "oapi-spec" = .ok sv := by
  unfold run at h
  simp only [hct, hcfg] at h
  rcases h2 : tomlIndex cfg "version" with e | vtab
  · simp only [h2] at h
    exact absurd h (by simp)
  simp only [h2] at h
  rcases h3 : tomlIndex vtab "version" with e | vval
  · simp only [h3] at h
    exact absurd h (by simp)
  simp only [h3] at h
  rcases h4 : replace fs0 "Dockerfile.deploy" labelPat
      (labelTmpl (pyFormat vval)) with e | ⟨fs1, t1⟩
  · simp only [h4] at h
    exact absurd h (by simp)
  simp only [h4] at h
  rcases h5 : replace fs1 "Dockerfile" labelPat
      (labelTmpl (pyFormat vval)) with e | ⟨fs2, t2⟩
  · simp only [h5] at h
    exact absurd h (by simp)
  simp only [h5] at h
  rcases h6 : replace fs2 "Cargo.toml" cargoPat
      (cargoTmpl (pyFormat vval)) with e | ⟨fs3, t3⟩
  · simp only [h6] at h
    exact absurd h (by simp)
  simp only [h6] at h
  rcases h7 : tomlIndex cfg "openapi" with e | oapid
  · simp only [h7] at h
    exact absurd h (by simp)
  simp only [h7] at h
  rcases h8 : tomlIndex oapid "oapigen-version" with e | gv4
  · simp only [h8] at h
    exact absurd h (by simp)
  simp only [h8] at h
  rcases h9 : replace fs3 "oapigen.ps1" oapiPs1Pat
      (oapiPs1Tmpl (pyFormat gv4)) with e | ⟨fs4, t4⟩
  · simp only [h9] at h
    exact absurd h (by simp)
  simp only [h9] at h
  rcases h10 : tomlIndex oapid "oapi-spec" with e | sv5
  · simp only [h10] at h
    exact absurd h (by simp)
  exact ⟨vtab, vval, oapid, gv4, sv5, rfl, h3, rfl, h8, h10⟩

theorem subAux_block {p : List RE} {r m w : List Char}
    (hA : matchFrom p (m ++ w) = some m.length) (hm : m ≠ []) :
    subAux p r (m ++ w) = r ++ subAux p r w := by
  obtain ⟨mc, mt, rfl⟩ := List.exists_cons_of_ne_nil hm
  have hA2 : matchFrom p (mc :: (mt ++ w)) = some (mt.length + 1) := by
    have hl : (mc :: mt).length = mt.length + 1 := rfl
    rw [← hl]
    exact hA
  rw [List.cons_append, subAux_cons_succ r hA2, List.drop_left]

theorem fsRead_mkFS (ct c1 c2 c3 c4 c5 : List Char) :
    fsRead (mkFS ct c1 c2 c3 c4 c5) "variables.toml" = some ct ∧
    fsRead (mkFS ct c1 c2 c3 c4 c5) "Dockerfile.deploy" = some c1 ∧
    fsRead (mkFS ct c1 c2 c3 c4 c5) "Dockerfile" = some c2 ∧
    fsRead (mkFS ct c1 c2 c3 c4 c5) "Cargo.toml" = some c3 ∧
    fsRead (mkFS ct c1 c2 c3 c4 c5) "oapigen.ps1" = some c4 ∧
    fsRead (mkFS ct c1 c2 c3 c4 c5) "oapigen.sh" = some c5 := by
  refine ⟨?_, ?_, ?_, ?_, ?_, ?_⟩ <;> rfl

/-! ## The claims -/

/-- C1 counterexample: configuration loading is not atomic with respect to
rule application.  With `version.version` present but the `openapi` table
missing, the run dies with a `KeyError` only after the first three
substitution calls, and `Dockerfile.deploy` has already been rewritten by
the time the process terminates. -/
theorem c1_counterexample :
    (run (fun _ => some cfgNoOpenapi)
        (mkFS [] "LABEL version=\"1.2.3\"".data [] [] [] [])).err
      = some (.keyMiss "openapi") ∧
    fsRead (run (fun _ => some cfgNoOpenapi)
        (mkFS [] "LABEL version=\"1.2.3\"".data [] [] [] [])).fs
        "Dockerfile.deploy"
      = some "LABEL version=\"9.9.9\"".data ∧
    "LABEL version=\"9.9.9\"".data ≠ "LABEL version=\"1.2.3\"".data := by
  decide

/-- C1 amended: failures that precede the first substitution call — a
missing configuration file, a TOML decoding failure, or a missing or
non-table `version.version` — do abort the run with no file modified and
nothing printed.  (A missing `openapi` field aborts only after the first
three calls; see the counterexample.) -/
theorem c1_amended (parse : List Char → Option TVal) (fs0 : FS)
    (h : fsRead fs0 "variables.toml" = none ∨
      ∃ ct, fsRead fs0 "variables.toml" = some ct ∧
        (parse ct = none ∨
         ∃ cfg, parse ct = some cfg ∧
           ((∃ e, tomlIndex cfg "version" = .error e) ∨
            ∃ vtab, tomlIndex cfg "version" = .ok vtab ∧
              ∃ e, tomlIndex vtab "version" = .error e))) :
    ∃ e, run parse fs0 = ⟨fs0, [], some e⟩ := by
  unfold run
  rcases h with h0 | ⟨ct, hct, h1⟩
  · rw [h0]
    exact ⟨.fileNotFound "variables.toml", rfl⟩
  · simp only [hct]
    rcases h1 with h1 | ⟨cfg, hcfg, h2⟩
    · simp only [h1]
      exact ⟨.tomlDecodeFail, rfl⟩
    · simp only [hcfg]
      rcases h2 with ⟨e, he⟩ | ⟨vtab, hvt, e, he⟩
      · simp only [he]
        exact ⟨e, rfl⟩
      · simp only [hvt, he]
        exact ⟨e, rfl⟩

/-- C1 amended, witnessed at a parser that rejects its input: the run stops
with the file system untouched and an empty trace. -/
theorem c1_amended_witness :
    fsRead [("variables.toml", ([] : List Char))] "variables.toml"
      = some [] ∧
    ∃ e, run (fun _ => none) [("variables.toml", ([] : List Char))]
      = ⟨[("variables.toml", [])], [], some e⟩ :=
  ⟨rfl, c1_amended (fun _ => none) [("variables.toml", [])]
    (Or.inr ⟨[], rfl, Or.inl rfl⟩)⟩

/-- C2 counterexample: a fully successful run prints seven status lines,
not six — the script performs seven substitution calls, because each of the
two generator scripts receives two calls and the three version targets one
each. -/
theorem c2_counterexample :
    (printsOf (run goodParse fsA).trace).length = 7 ∧
    (printsOf (run goodParse fsA).trace).length ≠ 6 := by
  decide

/-- C2 amended: every successful run performs exactly seven substitution
calls in source order — `Dockerfile.deploy`, `Dockerfile`, `Cargo.toml`,
twice `oapigen.ps1`, twice `oapigen.sh` — each contributing exactly one
status line, with no aggregate summary afterwards. -/
theorem c2_amended (parse : List Char → Option TVal) (fs0 : FS)
    (h : (run parse fs0).err = none) :
    (printsOf (run parse fs0).trace).length = 7 ∧
    ∃ t1 t2 t3 t4 t5 t6 t7 : List Event,
      (run parse fs0).trace = t1 ++ t2 ++ t3 ++ t4 ++ t5 ++ t6 ++ t7 ∧
      replaceEvents "Dockerfile.deploy" t1 ∧
      replaceEvents "Dockerfile" t2 ∧
      replaceEvents "Cargo.toml" t3 ∧
      replaceEvents "oapigen.ps1" t4 ∧
      replaceEvents "oapigen.ps1" t5 ∧
      replaceEvents "oapigen.sh" t6 ∧
      replaceEvents "oapigen.sh" t7 := by
  obtain ⟨t1, t2, t3, t4, t5, t6, t7, htr, h1, h2, h3, h4, h5, h6, h7⟩ :=
    run_err_none_trace parse fs0 h
  refine ⟨?_, t1, t2, t3, t4, t5, t6, t7, htr, h1, h2, h3, h4, h5, h6, h7⟩
  rw [htr]
  simp only [printsOf_append, List.length_append]
  rw [replaceEvents_prints_length h1, replaceEvents_prints_length h2,
    replaceEvents_prints_length h3, replaceEvents_prints_length h4,
    replaceEvents_prints_length h5, replaceEvents_prints_length h6,
    replaceEvents_prints_length h7]

/-- C2 amended, witnessed on the end-to-end scenario input. -/
theorem c2_amended_witness :
    (run goodParse fsA).err = none ∧
    (printsOf (run goodParse fsA).trace).length = 7 :=
  ⟨by decide, (c2_amended goodParse fsA (by decide)).1⟩

/-- C3: one `replace` call substitutes all non-overlapping matches in a
single pass (`subAux`), then either performs exactly one full overwrite of
the same path and prints `Updated <path>`, or performs no write, leaves the
file byte-for-byte unchanged, and prints `No changes needed in <path>`;
every successful call prints exactly one line and writes at most once. -/
theorem c3_replace_behavior (fs : FS) (path : String) (p : List RE)
    (tmpl text r : List Char)
    (hread : fsRead fs path = some text)
    (htm : parseTemplate tmpl = some r) :
    (subAux p r text ≠ text →
      replace fs path p tmpl
        = .ok (fsWrite fs path (subAux p r text),
            [.write path (subAux p r text), .print (updatedLine path)])) ∧
    (subAux p r text = text →
      replace fs path p tmpl = .ok (fs, [.print (noChangesLine path)])) ∧
    ∀ fs2 tr, replace fs path p tmpl = .ok (fs2, tr) →
      (printsOf tr).length = 1 ∧ (tr.filter isWriteEvent).length ≤ 1 := by
  have he := replace_eq (p := p) hread htm
  refine ⟨?_, ?_, ?_⟩
  · intro hne
    rw [he, if_neg hne]
  · intro heq
    rw [he, if_pos heq]
  · intro fs2 tr htr
    rw [he] at htr
    by_cases hc : subAux p r text = text
    · rw [if_pos hc] at htr
      rw [Except.ok.injEq, Prod.mk.injEq] at htr
      rw [← htr.2]
      simp [printsOf, isWriteEvent]
    · rw [if_neg hc] at htr
      rw [Except.ok.injEq, Prod.mk.injEq] at htr
      rw [← htr.2]
      simp [printsOf, isWriteEvent]

/-- C3, witnessed on a concrete call: exactly one line printed, at most one
write. -/
theorem c3_replace_behavior_witness :
    fsRead fsA "Dockerfile.deploy" = some "LABEL version=\"1.0.0\"".data ∧
    parseTemplate (labelTmpl "2.0.1".data)
      = some (labelTmpl "2.0.1".data) ∧
    ∀ fs2 tr,
      replace fsA "Dockerfile.deploy" labelPat (labelTmpl "2.0.1".data)
        = .ok (fs2, tr) →
      (printsOf tr).length = 1 ∧ (tr.filter isWriteEvent).length ≤ 1 :=
  ⟨by decide, by decide,
    (c3_replace_behavior fsA "Dockerfile.deploy" labelPat
      (labelTmpl "2.0.1".data) "LABEL version=\"1.0.0\"".data
      (labelTmpl "2.0.1".data) (by decide) (by decide)).2.2⟩

/-- C8: if `variables.toml` is absent the run terminates immediately with a
fatal error, before any substitution call: no file is modified and nothing
is printed. -/
theorem c8_missing_config_fatal (parse : List Char → Option TVal) (fs0 : FS)
    (h : fsRead fs0 "variables.toml" = none) :
    run parse fs0 = ⟨fs0, [], some (.fileNotFound "variables.toml")⟩ := by
  unfold run
  rw [h]

/-- C8, witnessed on an empty file system. -/
theorem c8_missing_config_fatal_witness :
    fsRead ([] : FS) "variables.toml" = none ∧
    run goodParse ([] : FS)
      = ⟨[], [], some (.fileNotFound "variables.toml")⟩ :=
  ⟨rfl, c8_missing_config_fatal goodParse [] rfl⟩

/-- C4: the two `oapigen.ps1` patterns start with `$`, an end-of-input
anchor after which the rest of the pattern still demands input, so they
match no string at all; both calls on `oapigen.ps1` therefore leave any
content unchanged and print `No changes needed in oapigen.ps1`. -/
theorem c4_ps1_rules_no_effect (fs : FS) (g s content : List Char)
    (hread : fsRead fs "oapigen.ps1" = some content)
    (hg : '\\' ∉ oapiPs1Tmpl g) (hs : '\\' ∉ specPs1Tmpl s) :
    (∀ u, matchFrom oapiPs1Pat u = none) ∧
    (∀ u, matchFrom specPs1Pat u = none) ∧
    replace fs "oapigen.ps1" oapiPs1Pat (oapiPs1Tmpl g)
      = .ok (fs, [.print (noChangesLine "oapigen.ps1")]) ∧
    replace fs "oapigen.ps1" specPs1Pat (specPs1Tmpl s)
      = .ok (fs, [.print (noChangesLine "oapigen.ps1")]) := by
  have h1 := parseTemplate_no_backslash _ hg
  have h2 := parseTemplate_no_backslash _ hs
  refine ⟨matchFrom_oapiPs1_none, matchFrom_specPs1_none, ?_, ?_⟩
  · rw [replace_eq (p := oapiPs1Pat) hread h1,
      if_pos (subAux_id_of_never matchFrom_oapiPs1_none _ content)]
  · rw [replace_eq (p := specPs1Pat) hread h2,
      if_pos (subAux_id_of_never matchFrom_specPs1_none _ content)]

/-- C4, witnessed on a `oapigen.ps1` that textually contains the pattern:
even then, nothing matches and nothing changes. -/
theorem c4_ps1_rules_no_effect_witness :
    fsRead fsA "oapigen.ps1"
      = some "$OPENAPI_GENERATOR_VERSION=\"1.0.0\"".data ∧
    replace fsA "oapigen.ps1" oapiPs1Pat (oapiPs1Tmpl "5.4.0".data)
      = .ok (fsA, [.print (noChangesLine "oapigen.ps1")]) :=
  ⟨by decide,
    (c4_ps1_rules_no_effect fsA "5.4.0".data "3.1.0".data
      "$OPENAPI_GENERATOR_VERSION=\"1.0.0\"".data (by decide) (by decide)
      (by decide)).2.2.1⟩

/-- C5 counterexample: values are not substituted verbatim — backslash
escapes in the instantiated replacement are interpreted.  The value
`a\nb` (backslash, letter n) is written into the target as `a`, a real
newline, `b`: the written text differs from the template text. -/
theorem c5_counterexample :
    parseTemplate (labelTmpl "a\\nb".data)
      = some "LABEL version=\"a\nb\"".data ∧
    "LABEL version=\"a\nb\"".data ≠ labelTmpl "a\\nb".data ∧
    replace [("Dockerfile", "LABEL version=\"1.2.3\"".data)] "Dockerfile"
        labelPat (labelTmpl "a\\nb".data)
      = .ok ([("Dockerfile", "LABEL version=\"a\nb\"".data)],
          [.write "Dockerfile" "LABEL version=\"a\nb\"".data,
           .print (updatedLine "Dockerfile")]) := by
  decide

/-- C5 amended: substitution is verbatim exactly when the instantiated
template contains no backslash; then the template text itself replaces each
match, character for character. -/
theorem c5_amended (tmpl : List Char) (hnb : '\\' ∉ tmpl) :
    parseTemplate tmpl = some tmpl ∧
    ∀ (fs : FS) (path : String) (p : List RE) (text : List Char),
      fsRead fs path = some text →
      replace fs path p tmpl =
        if subAux p tmpl text = text then
          .ok (fs, [.print (noChangesLine path)])
        else
          .ok (fsWrite fs path (subAux p tmpl text),
            [.write path (subAux p tmpl text),
             .print (updatedLine path)]) := by
  have h1 := parseTemplate_no_backslash tmpl hnb
  exact ⟨h1, fun fs path p text hread => replace_eq hread h1⟩

/-- C5 amended, witnessed on a backslash-free version template. -/
theorem c5_amended_witness :
    ('\\' ∉ labelTmpl "2.0.1".data) ∧
    parseTemplate (labelTmpl "2.0.1".data)
      = some (labelTmpl "2.0.1".data) :=
  ⟨by decide, (c5_amended (labelTmpl "2.0.1".data) (by decide)).1⟩

/-- C9 counterexample: a non-string `version.version` does not make loading
fail.  An integer value is accepted, the whole run finishes without error,
and the integer is formatted into the targets. -/
theorem c9_counterexample :
    (run (fun _ => some cfgIntVer) fsA).err = none ∧
    fsRead (run (fun _ => some cfgIntVer) fsA).fs "Dockerfile.deploy"
      = some "LABEL version=\"3\"".data := by
  decide

/-- C9 amended: only the absence half of the invariant holds — if any of
the three fields (`version.version`, `openapi.oapigen-version`,
`openapi.oapi-spec`) is missing, or a parent is not a table, the run fails;
present non-string values are not rejected (see the counterexample). -/
theorem c9_amended (parse : List Char → Option TVal) (fs0 : FS)
    (ct : List Char) (cfg : TVal)
    (hr : fsRead fs0 "variables.toml" = some ct)
    (hp : parse ct = some cfg)
    (h : (∃ e, tomlIndex cfg "version" = .error e) ∨
      (∃ vtab, tomlIndex cfg "version" = .ok vtab ∧
        ∃ e, tomlIndex vtab "version" = .error e) ∨
      (∃ e, tomlIndex cfg "openapi" = .error e) ∨
      (∃ oapid, tomlIndex cfg "openapi" = .ok oapid ∧
        ((∃ e, tomlIndex oapid "oapigen-version" = .error e) ∨
         ∃ e, tomlIndex oapid "oapi-spec" = .error e))) :
    (run parse fs0).err ≠ none := by
  intro hnone
  obtain ⟨vtab, vval, oapid, gv, sv, k1, k2, k3, k4, k5⟩ :=
    run_err_none_lookups hnone hr hp
  rcases h with ⟨e, he⟩ | ⟨vtab2, hvt, e, he⟩ | ⟨e, he⟩ | ⟨oapid2, hoa, h2⟩
  · rw [k1] at he
    exact Except.noConfusion he
  · have h3 : (Except.ok vtab : Except PyErr TVal) = .ok vtab2 :=
      k1.symm.trans hvt
    injection h3 with h4
    subst h4
    rw [k2] at he
    exact Except.noConfusion he
  · rw [k3] at he
    exact Except.noConfusion he
  · have h3 : (Except.ok oapid : Except PyErr TVal) = .ok oapid2 :=
      k3.symm.trans hoa
    injection h3 with h4
    subst h4
    rcases h2 with ⟨e, he⟩ | ⟨e, he⟩
    · rw [k4] at he
      exact Except.noConfusion he
    · rw [k5] at he
      exact Except.noConfusion he

/-- C9 amended, witnessed on a configuration lacking `oapi-spec`. -/
theorem c9_amended_witness :
    (run (fun _ => some cfgNoSpec) fsA).err ≠ none :=
  c9_amended (fun _ => some cfgNoSpec) fsA [] cfgNoSpec rfl rfl
    (Or.inr (Or.inr (Or.inr
      ⟨.table [("oapigen-version", .str "5.4.0")], rfl,
        Or.inr ⟨.keyMiss "oapi-spec", rfl⟩⟩)))

/-- C6 counterexample: idempotence fails for some configuration values.
With version value `1.2.3" LABEL version="7.7.7`, the first run plants new
pattern matches; the second run rewrites `Dockerfile.deploy` again,
changing the file and printing `Updated` instead of `No changes needed`. -/
theorem c6_counterexample :
    (run advParse advFS).err = none ∧
    (run advParse (run advParse advFS).fs).err = none ∧
    updatedLine "Dockerfile.deploy"
      ∈ printsOf (run advParse (run advParse advFS).fs).trace ∧
    (run advParse (run advParse advFS).fs).fs ≠ (run advParse advFS).fs := by
  decide

/-- C6 amended: idempotence does hold for conventional dotted-numeric
configuration values.  If all three values have the shape
`<digits>.<digits>.<digits>`, a second run over the output of a first run
changes no file, performs no write, and prints `No changes needed` for all
seven substitution calls. -/
theorem c6_amended (parse : List Char → Option TVal) (vS gS sS : String)
    (ct c1 c2 c3 c4 c5 : List Char)
    (hparse : parse ct = some (mkCfg (.str vS) (.str gS) (.str sS)))
    (hv : VersionShape vS.data) (hg : VersionShape gS.data)
    (hs : VersionShape sS.data) :
    (run parse (mkFS ct c1 c2 c3 c4 c5)).err = none ∧
    (run parse (run parse (mkFS ct c1 c2 c3 c4 c5)).fs).err = none ∧
    (run parse (run parse (mkFS ct c1 c2 c3 c4 c5)).fs).fs
      = (run parse (mkFS ct c1 c2 c3 c4 c5)).fs ∧
    printsOf (run parse (run parse (mkFS ct c1 c2 c3 c4 c5)).fs).trace
      = [noChangesLine "Dockerfile.deploy", noChangesLine "Dockerfile",
         noChangesLine "Cargo.toml", noChangesLine "oapigen.ps1",
         noChangesLine "oapigen.ps1", noChangesLine "oapigen.sh",
         noChangesLine "oapigen.sh"] ∧
    (run parse (run parse (mkFS ct c1 c2 c3 c4 c5)).fs).trace.filter
        isWriteEvent = [] := by
  obtain ⟨m0, m1, m2, m3, m4, m5⟩ := fsRead_mkFS ct c1 c2 c3 c4 c5
  obtain ⟨e1, r0, r1, r2, r3, r4, r5, _⟩ :=
    run_str_ok hparse hv hg hs m0 m1 m2 m3 m4 m5
  obtain ⟨e2, _, _, _, _, _, _, hcond⟩ :=
    run_str_ok hparse hv hg hs r0 r1 r2 r3 r4 r5
  obtain ⟨hfs, hpr, hw⟩ := hcond
    ⟨subAux_idem_label hv c1, subAux_idem_label hv c2,
     subAux_idem_cargo hv c3, subAux_sh_first_idem hg hs c5,
     subAux_sh_second_idem hg hs c5⟩
  exact ⟨e1, e2, hfs, hpr, hw⟩

/-- C6 amended, witnessed on the end-to-end scenario values and files. -/
theorem c6_amended_witness :
    VersionShape "2.0.1".data ∧ VersionShape "5.4.0".data ∧
    VersionShape "3.1.0".data ∧
    (run goodParse (run goodParse fsA).fs).fs = (run goodParse fsA).fs := by
  have sh1 : VersionShape "2.0.1".data :=
    ⟨"2".data, "0".data, "1".data, by decide, by decide, by decide,
     by decide, by decide, by decide, by decide⟩
  have sh2 : VersionShape "5.4.0".data :=
    ⟨"5".data, "4".data, "0".data, by decide, by decide, by decide,
     by decide, by decide, by decide, by decide⟩
  have sh3 : VersionShape "3.1.0".data :=
    ⟨"3".data, "1".data, "0".data, by decide, by decide, by decide,
     by decide, by decide, by decide, by decide⟩
  exact ⟨sh1, sh2, sh3,
    (c6_amended goodParse "2.0.1" "5.4.0" "3.1.0" []
      "LABEL version=\"1.0.0\"".data
      "LABEL version=\"1.0.0\"".data
      "version = \"0.1.0\"".data
      "$OPENAPI_GENERATOR_VERSION=\"1.0.0\"".data
      "OPENAPI_GENERATOR_VERSION=\"1.0.0\"\nSPEC_PATH=\"0.0.1\"".data
      rfl sh1 sh2 sh3).2.2.1⟩

/-- C7 counterexample: the seven substitution calls do not target pairwise
distinct files — `oapigen.ps1` and `oapigen.sh` each get two calls — and
exchanging the two `oapigen.sh` calls changes the final content of that
file and the collection of status lines (even as a multiset), for an
`oapigen-version` value that smuggles in a `SPEC_PATH` assignment. -/
theorem c7_counterexample :
    ((rules7 "9.9.9".data gAdv "2.2.2".data).map fun rl => rl.path)
      = ["Dockerfile.deploy", "Dockerfile", "Cargo.toml", "oapigen.ps1",
         "oapigen.ps1", "oapigen.sh", "oapigen.sh"] ∧
    ¬ ((rules7 "9.9.9".data gAdv "2.2.2".data).map
        fun rl => rl.path).Nodup ∧
    (rules7swap "9.9.9".data gAdv "2.2.2".data).take 5
      = (rules7 "9.9.9".data gAdv "2.2.2".data).take 5 ∧
    (rules7swap "9.9.9".data gAdv "2.2.2".data).drop 5
      = ((rules7 "9.9.9".data gAdv "2.2.2".data).drop 5).reverse ∧
    (applyRules fsC7 (rules7 "9.9.9".data gAdv "2.2.2".data)).2.2
      = none ∧
    (applyRules fsC7 (rules7swap "9.9.9".data gAdv "2.2.2".data)).2.2
      = none ∧
    fsRead (applyRules fsC7
        (rules7 "9.9.9".data gAdv "2.2.2".data)).1 "oapigen.sh"
      ≠ fsRead (applyRules fsC7
        (rules7swap "9.9.9".data gAdv "2.2.2".data)).1 "oapigen.sh" ∧
    noChangesLine "oapigen.sh" ∈ printsOf (applyRules fsC7
      (rules7swap "9.9.9".data gAdv "2.2.2".data)).2.1 ∧
    noChangesLine "oapigen.sh" ∉ printsOf (applyRules fsC7
      (rules7 "9.9.9".data gAdv "2.2.2".data)).2.1 ∧
    ¬ (printsOf (applyRules fsC7
        (rules7 "9.9.9".data gAdv "2.2.2".data)).2.1).Perm
      (printsOf (applyRules fsC7
        (rules7swap "9.9.9".data gAdv "2.2.2".data)).2.1) := by
  decide

/-- C7 amended: order-insensitivity holds only across distinct paths.  A
successful run equals the in-order application of the seven rules, and
exchanging two adjacent rules whose target paths differ preserves the
final file system, the error outcome, and the multiset of events. -/
theorem c7_amended :
    (∀ (parse : List Char → Option TVal) (fs0 : FS) (vS gS sS : String)
        (ct : List Char),
      parse ct = some (mkCfg (.str vS) (.str gS) (.str sS)) →
      fsRead fs0 "variables.toml" = some ct →
      run parse fs0
        = ⟨(applyRules fs0 (rules7 vS.data gS.data sS.data)).1,
           (applyRules fs0 (rules7 vS.data gS.data sS.data)).2.1,
           (applyRules fs0 (rules7 vS.data gS.data sS.data)).2.2⟩) ∧
    ∀ (a b : Rule), a.path ≠ b.path →
      ∀ (xs : List Rule) (fs : FS) (ys : List Rule),
        (∀ rl ∈ xs ++ a :: b :: ys,
          (fsRead fs rl.path).isSome = true ∧
          (parseTemplate rl.tmpl).isSome = true) →
        (applyRules fs (xs ++ a :: b :: ys)).1
          = (applyRules fs (xs ++ b :: a :: ys)).1 ∧
        (applyRules fs (xs ++ a :: b :: ys)).2.1.Perm
          (applyRules fs (xs ++ b :: a :: ys)).2.1 ∧
        (applyRules fs (xs ++ a :: b :: ys)).2.2
          = (applyRules fs (xs ++ b :: a :: ys)).2.2 :=
  ⟨fun _ _ _ _ _ _ hp hr => run_eq_applyRules hp hr,
   fun _ _ hab xs fs ys hpres => applyRules_swap hab xs fs ys hpres⟩

/-- C7 amended, witnessed: the two Dockerfile rules (distinct paths)
commute on the scenario file system. -/
theorem c7_amended_witness :
    (("Dockerfile.deploy" : String) ≠ "Dockerfile") ∧
    (applyRules fsA
        ([] ++ ⟨"Dockerfile.deploy", labelPat, labelTmpl "9.9.9".data⟩
          :: ⟨"Dockerfile", labelPat, labelTmpl "9.9.9".data⟩ :: [])).1
      = (applyRules fsA
        ([] ++ ⟨"Dockerfile", labelPat, labelTmpl "9.9.9".data⟩
          :: ⟨"Dockerfile.deploy", labelPat, labelTmpl "9.9.9".data⟩
          :: [])).1 :=
  ⟨by decide,
    (c7_amended.2 ⟨"Dockerfile.deploy", labelPat, labelTmpl "9.9.9".data⟩
      ⟨"Dockerfile", labelPat, labelTmpl "9.9.9".data⟩ (by decide) [] fsA []
      (by decide)).1⟩

/-- C10: the `Cargo.toml` rule rewrites every occurrence of the pattern in
the file, not only the package's own version field: for all dotted-numeric
versions, a dependency version specification of the same textual shape is
rewritten to the package version as well. -/
theorem c10_dependency_versions_rewritten (v p d : List Char)
    (hp : VersionShape p) (hd : VersionShape d) :
    subAux cargoPat (cargoTmpl v)
        ("[package]\nname = \"ltzf\"\n".data ++ cargoTmpl p
          ++ "\n\n[dependencies]\nserde = \x7b ".data ++ cargoTmpl d
          ++ " \x7d\n".data)
      = "[package]\nname = \"ltzf\"\n".data ++ cargoTmpl v
          ++ "\n\n[dependencies]\nserde = \x7b ".data ++ cargoTmpl v
          ++ " \x7d\n".data := by
  have hshape : cargoPat = lits cargoPre ++
      ([RE.wsStar, RE.lit '=', RE.wsStar, RE.lit '"'] ++ verTail) := by
    rw [cargoPat, List.append_assoc]
  have hopX : ∀ j, j < ("[package]\nname = \"ltzf\"\n".data).length → ∀ s,
      matchFrom cargoPat
        (List.drop j "[package]\nname = \"ltzf\"\n".data ++ s) = none := by
    simp only [hshape]
    exact opacity_of_mismatchAll (by decide)
  have hopY : ∀ j, j < ("\n\n[dependencies]\nserde = \x7b ".data).length →
      ∀ s, matchFrom cargoPat
        (List.drop j "\n\n[dependencies]\nserde = \x7b ".data ++ s)
          = none := by
    simp only [hshape]
    exact opacity_of_mismatchAll (by decide)
  have hopZ : ∀ j, j < (" \x7d\n".data).length → ∀ s,
      matchFrom cargoPat (List.drop j " \x7d\n".data ++ s) = none := by
    simp only [hshape]
    exact opacity_of_mismatchAll (by decide)
  have hZ : subAux cargoPat (cargoTmpl v) " \x7d\n".data = " \x7d\n".data := by
    have h1 := subAux_append_nomatch (r := cargoTmpl v) hopZ []
    rw [List.append_nil] at h1
    rw [h1, subAux_nil]
    have h2 : matchFrom cargoPat [] = none := by decide
    rw [h2]
    rfl
  simp only [List.append_assoc]
  rw [subAux_append_nomatch hopX,
    subAux_block (Amatch_cargo hp _) (cargoTmpl_ne_nil p),
    subAux_append_nomatch hopY,
    subAux_block (Amatch_cargo hd _) (cargoTmpl_ne_nil d), hZ]

/-- C10, witnessed on concrete versions: the dependency specification is
rewritten along with the package version. -/
theorem c10_dependency_versions_rewritten_witness :
    VersionShape "2.0.0".data ∧
    subAux cargoPat (cargoTmpl "2.0.0".data)
        ("[package]\nname = \"ltzf\"\n".data ++ cargoTmpl "0.1.0".data
          ++ "\n\n[dependencies]\nserde = \x7b ".data
          ++ cargoTmpl "1.0.0".data ++ " \x7d\n".data)
      = "[package]\nname = \"ltzf\"\n".data ++ cargoTmpl "2.0.0".data
          ++ "\n\n[dependencies]\nserde = \x7b ".data
          ++ cargoTmpl "2.0.0".data ++ " \x7d\n".data := by
  have sh1 : VersionShape "2.0.0".data :=
    ⟨"2".data, "0".data, "0".data, by decide, by decide, by decide,
     by decide, by decide, by decide, by decide⟩
  have sh2 : VersionShape "0.1.0".data :=
    ⟨"0".data, "1".data, "0".data, by decide, by decide, by decide,
     by decide, by decide, by decide, by decide⟩
  have sh3 : VersionShape "1.0.0".data :=
    ⟨"1".data, "0".data, "0".data, by decide, by decide, by decide,
     by decide, by decide, by decide, by decide⟩
  exact ⟨sh1, c10_dependency_versions_rewritten "2.0.0".data "0.1.0".data
    "1.0.0".data sh2 sh3⟩

end SetVersion
